/-
Verification of the dp-KRE distributed k-th ranked element protocol.

This file gives a shallow embedding of the protocol core of the repository
(src/protocol.rs, src/party/party_client.rs, src/party/party_server.rs,
src/party/dp_client.rs, src/utils/protocol.rs) and proves properties of it.

Modelling conventions:
- The generic element type T (TypeTrait) is modelled by ℤ (the repository
  instantiates it at i32 and rug::Integer; `average_floor` is floor((a+b)/2),
  which for the divisor 2 is integer division `/` on ℤ).
- The threshold Paillier cryptosystem is an external opaque capability
  (pht_crypto); the spec treats it as exact homomorphic arithmetic
  (`decrypt(⊕ encrypt(x_i)) = Σ x_i`).  Ciphertexts of counts are therefore
  modelled by the plaintext counts themselves: `encrypt` is the identity,
  `add_ciphertexts` is plaintext addition starting from an encryption of 0
  (`Ciphertext::from(1)` is the multiplicative identity, i.e. Enc(0)), and
  `combine_shares` returns the plaintext sums.  Key material (pk, key share)
  is carried as opaque ℕ tokens; the encryption RNG is dropped.
- Rust `usize` values are ℕ; the protocol only subtracts where the source
  cannot underflow (hypotheses mark the panic-free domains).
- `f64` computations are modelled exactly: the Laplace-noise path over ℝ
  (it involves ln/exp), the clamping arithmetic of the DP wrapper over ℚ.
  `f64::round` rounds half away from zero.
- Randomness (the uniform draws feeding the Laplace inverse CDF) is passed
  in as explicit parameters.
- The unbounded `loop` of the in-process driver `leaky_kth_ranked_element`
  is modelled with an explicit fuel parameter; fuel exhaustion returns
  `none` while a `break` of the source loop returns `some`.
-/
import Mathlib

set_option linter.unusedVariables false
set_option linter.unnecessarySeqFocus false

namespace DPKRE

instance : Std.Antisymm ((· : ℤ) ≤ ·) := ⟨fun h1 h2 => le_antisymm h1 h2⟩

/-- Verdict broadcast by the coordinator each round
(enum UpdateSearchRange in src/party/mod.rs). -/
inductive UpdateSearchRange where
  | FoundK
  | SearchBelow
  | SearchAbove
  | Abort
deriving DecidableEq, Repr

/-- num::integer::Average::average_floor, i.e. floor((a+b)/2); for the
positive divisor 2, integer division on ℤ is floor division. -/
def avgFloor (a b : ℤ) : ℤ := (a + b) / 2

/-- State of one party (struct PartyClient in src/party/party_client.rs).
Field order follows the source; pk and key_share are opaque tokens for the
external crypto capability, and the rand field (encryption RNG) is dropped. -/
structure PartyClient where
  database : List ℤ
  idx : ℕ
  n : ℕ
  k : ℕ
  databases_size : ℕ
  search_range : ℤ × ℤ
  search_range_idx : ℕ × ℕ
  greater_than_m_idx : Option ℕ
  m : ℤ
  pk : ℕ
  key_share : ℕ
deriving DecidableEq, Repr

/-- One step of the fold in local_comp1: match on el.cmp(&m); elements
below m bump less, elements above m bump greater and record the first such
enumerate index via get_or_insert. -/
def scanStep (m : ℤ) (acc : (ℕ × ℕ) × Option ℕ) (ie : ℕ × ℤ) : (ℕ × ℕ) × Option ℕ :=
  if ie.2 < m then ((acc.1.1 + 1, acc.1.2), acc.2)
  else if m < ie.2 then ((acc.1.1, acc.1.2 + 1), some (acc.2.getD ie.1))
  else acc

/-- The enumerate-fold of local_comp1 over the scanned range. -/
def localScan (m : ℤ) (l : List ℤ) : (ℕ × ℕ) × Option ℕ :=
  l.enum.foldl (scanStep m) ((0, 0), none)

/-- PartyClient::local_comp1: recompute m, slice the database to
search_range_idx when k = 1 or k = databases_size (min/max queries), scan,
and store the first index greater than m offset by search_range_idx.start.
Returns the updated state and the [less, greater] counts. -/
def local_comp1 (c : PartyClient) : PartyClient × ℕ × ℕ :=
  let m := avgFloor c.search_range.1 c.search_range.2
  let scanned := if c.k = 1 ∨ c.k = c.databases_size
    then (c.database.drop c.search_range_idx.1).take
      (c.search_range_idx.2 - c.search_range_idx.1)
    else c.database
  let r := localScan m scanned
  ({ c with
      m := m
      greater_than_m_idx := r.2.map (fun idx => idx + c.search_range_idx.1) },
   r.1.1, r.1.2)

/-- PartyClient::update_search_range.  FoundK returns Some(m); SearchBelow
moves the upper bound to m - 1 and, when the greater_than_m_idx cache is
set, the end of search_range_idx to it; SearchAbove is symmetric on the
lower side; the wildcard arm (Abort) returns None without changes. -/
def update_search_range (c : PartyClient) (u : UpdateSearchRange) :
    PartyClient × Option ℤ :=
  match u with
  | .FoundK => (c, some c.m)
  | .SearchBelow =>
    let c := { c with search_range := (c.search_range.1, c.m - 1) }
    let c := match c.greater_than_m_idx with
      | some idx => { c with search_range_idx := (c.search_range_idx.1, idx) }
      | none => c
    (c, none)
  | .SearchAbove =>
    let c := { c with search_range := (c.m + 1, c.search_range.2) }
    let c := match c.greater_than_m_idx with
      | some idx => { c with search_range_idx := (idx, c.search_range_idx.2) }
      | none => c
    (c, none)
  | .Abort => (c, none)

/-- PartyClient::new: sorts the database, initialises search_range_idx to
0..len, m to average_floor of the range, and greater_than_m_idx to None. -/
def PartyClient.new (database : List ℤ) (idx n k databases_size : ℕ)
    (search_range : ℤ × ℤ) (pk key_share : ℕ) : PartyClient :=
  let db := List.insertionSort (· ≤ ·) database
  { database := db
    idx := idx
    n := n
    k := k
    databases_size := databases_size
    search_range := search_range
    search_range_idx := (0, db.length)
    greater_than_m_idx := none
    m := avgFloor search_range.1 search_range.2
    pk := pk
    key_share := key_share }

/-- Coordinator state (struct PartyServer in src/party/party_server.rs). -/
structure PartyServer where
  n : ℕ
  pk : ℕ
  k : ℕ
  databases_size : ℕ
deriving DecidableEq, Repr

/-- PartyServer::add_ciphertexts: homomorphic sums of the parties' count
ciphertexts, folded from Ciphertext::from(1) = Enc(0); in the exact-crypto
model these are the plaintext sums. -/
def PartyServer.add_ciphertexts (s : PartyServer) (lts gts : List ℕ) : ℕ × ℕ :=
  (lts.foldl (· + ·) 0, gts.foldl (· + ·) 0)

/-- PartyServer::calculate_update: Abort on plaintext range violation, then
SearchBelow, then SearchAbove, else FoundK, in this order. -/
def calculate_update (s : PartyServer) (lt gt : ℕ) : UpdateSearchRange :=
  if lt > s.databases_size ∨ gt > s.databases_size then .Abort
  else if lt ≥ s.k then .SearchBelow
  else if gt > s.databases_size - s.k then .SearchAbove
  else .FoundK

/-- The verdict-application loop of leaky_kth_ranked_element: res is
overwritten by each party's update_search_range and the loop breaks at the
first Some, leaving later parties un-updated. -/
def applyUpdates (u : UpdateSearchRange) :
    List PartyClient → List PartyClient × Option ℤ
  | [] => ([], none)
  | c :: cs =>
    let r := update_search_range c u
    match r.2 with
    | some v => (r.1 :: cs, some v)
    | none =>
      let rest := applyUpdates u cs
      (r.1 :: rest.1, rest.2)

/-- One round of the in-process driver: every party runs local_computation
(local_comp1 followed by encryption of the counts), the server sums the
ciphertexts, the parties produce decryption shares (stateless, exact-crypto
model), the server combines them into plaintext sums, computes the verdict,
and each party applies it. -/
def protocolRound (s : PartyServer) (parties : List PartyClient) :
    List PartyClient × Option ℤ :=
  let comps := parties.map local_comp1
  let parties2 := comps.map (fun r => r.1)
  let sums := s.add_ciphertexts (comps.map (fun r => r.2.1)) (comps.map (fun r => r.2.2))
  let update := calculate_update s sums.1 sums.2
  applyUpdates update parties2

/-- The loop of leaky_kth_ranked_element (src/protocol.rs) with explicit
fuel: the source loop breaks only when some party's update returns Some;
fuel exhaustion models observing no termination within that many rounds. -/
def leaky_kth_ranked_element (s : PartyServer) :
    ℕ → List PartyClient → Option ℤ
  | 0, _ => none
  | fuel + 1, parties =>
    let r := protocolRound s parties
    match r.2 with
    | some v => some v
    | none => leaky_kth_ranked_element s fuel r.1

/-- The per-database minima of create_server_clients:
databases.iter().map(|db| db.iter().min().unwrap()); the unwrap on an empty
database panics, modelled by none. -/
def partyMins : List (List ℤ) → Option (List ℤ)
  | [] => some []
  | db :: rest =>
    match db.min?, partyMins rest with
    | some mn, some ms => some (mn :: ms)
    | _, _ => none

/-- The per-database maxima, as partyMins. -/
def partyMaxs : List (List ℤ) → Option (List ℤ)
  | [] => some []
  | db :: rest =>
    match db.max?, partyMaxs rest with
    | some mx, some ms => some (mx :: ms)
    | _, _ => none

/-- The client-construction loop of create_server_clients
(databases.into_iter().enumerate().map(... PartyClient::new ...)); the key
share poly.compute(idx) is the opaque token idx. -/
def buildClients (n k databases_size : ℕ) (search_range : ℤ × ℤ) :
    ℕ → List (List ℤ) → List PartyClient
  | _, [] => []
  | i, db :: rest =>
    PartyClient.new db i n k databases_size search_range 0 i ::
      buildClients n k databases_size search_range (i + 1) rest

/-- create_server_clients (src/utils/protocol.rs): derives n, N, the global
min/max of the union (panicking — none — when a database or the collection
is empty), generates keys (opaque), and builds the clients and the server.
No validation of k or of the range is performed. -/
def create_server_clients (k : ℕ) (databases : List (List ℤ)) :
    Option (PartyServer × List PartyClient) :=
  let n := databases.length
  let databases_size := (databases.map List.length).sum
  match (partyMins databases).bind List.min?, (partyMaxs databases).bind List.max? with
  | some mn, some mx =>
    some ({ n := n, pk := 0, k := k, databases_size := databases_size },
      buildClients n k databases_size (mn, mx) 0 databases)
  | _, _ => none

/-- get_kth_element (src/utils/protocol.rs): flatten all databases, sort,
index at k - 1 (out of range panics; modelled by the default 0, unused
under the in-range hypotheses). -/
def get_kth_element (dbs : List (List ℤ)) (k : ℕ) : ℤ :=
  (List.insertionSort (· ≤ ·) dbs.flatten).getD (k - 1) 0

/-- Number of elements of l strictly below m. -/
def countLt (l : List ℤ) (m : ℤ) : ℕ := l.countP (fun x => x < m)

/-- Number of elements of l strictly above m. -/
def countGt (l : List ℤ) (m : ℤ) : ℕ := l.countP (fun x => m < x)

/-- Number of elements of l at most m. -/
def countLe (l : List ℤ) (m : ℤ) : ℕ := l.countP (fun x => x ≤ m)

/-- Index of the first element strictly greater than m, if any. -/
def firstIdxGt (m : ℤ) : List ℤ → Option ℕ
  | [] => none
  | x :: xs => if m < x then some 0 else (firstIdxGt m xs).map (· + 1)

/-- Noise levels of the DP wrapper (enum NoiseLevel in src/party/dp_client.rs). -/
inductive NoiseLevel where
  | NONE
  | LOW
  | MEDIUM
  | HIGH
deriving DecidableEq, Repr

/-- get_scale_fixed: a fixed Laplace scale per noise level. -/
noncomputable def get_scale_fixed (noise_level : NoiseLevel) (result db_size : ℕ) : ℝ :=
  match noise_level with
  | .NONE => 0
  | .LOW => 0.2
  | .MEDIUM => 0.5
  | .HIGH => 2.0

/-- get_scale_sigmoid: scale = 1/(1 + exp(-ratio * compression + 5)) *
scale_sigmoid with ratio = result/db_size and level-dependent compression
and scale_sigmoid (log base 100 of the database size). -/
noncomputable def get_scale_sigmoid (noise_level : NoiseLevel) (result db_size : ℕ) : ℝ :=
  let db_size2 : ℝ := (db_size : ℝ)
  let db_size_log := Real.logb 100 db_size2
  let cs : ℝ × ℝ :=
    match noise_level with
    | .NONE => (0.0, 0.0)
    | .LOW => (5.0, db_size_log)
    | .MEDIUM => (10.0, 1.5 * db_size_log)
    | .HIGH => (15.0, 2.0 * db_size_log)
  let ratio := (result : ℝ) / db_size2
  let e := Real.exp (-ratio * cs.1 + 5.0)
  1 / (1 + e) * cs.2

/-- f64::signum restricted to non-NaN inputs: 1 for nonnegative (including
+0.0), -1 for negative. -/
noncomputable def sgnF (x : ℝ) : ℝ := if x < 0 then -1 else 1

/-- laplace_point: inverse CDF of Laplace(0, scale) applied to a uniform
draw p; mu - scale * sgn(p - 0.5) * ln(1 - 2 * |p - 0.5|) with mu = 0. -/
noncomputable def laplace_point (scale p : ℝ) : ℝ :=
  0 - scale * sgnF (p - 0.5) * Real.log (1 - 2 * |p - 0.5|)

/-- f64::round: round half away from zero. -/
noncomputable def rustRound (x : ℝ) : ℤ :=
  if x < 0 then -⌊-x + 1 / 2⌋ else ⌊x + 1 / 2⌋

/-- The count update of DPClient::add_noise given the rounded noise:
((result as isize) + noise).max(0) as usize. -/
def addNoiseInt (result : ℕ) (noise : ℤ) : ℕ := ((result : ℤ) + noise).toNat

/-- Rounding used by the DP clamp: f64::round on a nonnegative value is
floor(x + 1/2), and the usize cast truncates the nonnegative result. -/
def roundHalfNat (q : ℚ) : ℕ := (⌊q + 1 / 2⌋).toNat

/-- The proportional clamp of DPClient::local_computation: when the noised
counts exceed the database size, subtract from each count its share of the
excess (rounded), with saturating subtraction. -/
def dpClamp (len less greater : ℕ) : ℕ × ℕ :=
  let sum_after_noise := less + greater
  if sum_after_noise > len then
    let diff := sum_after_noise - len
    let less_adjustment := roundHalfNat ((less : ℚ) / (sum_after_noise : ℚ) * (diff : ℚ))
    let greater_adjustment := roundHalfNat ((greater : ℚ) / (sum_after_noise : ℚ) * (diff : ℚ))
    (less - less_adjustment, greater - greater_adjustment)
  else (less, greater)

/-- The pair of noised counts before the clamp, as a function of the raw
counts of local_comp1 and the two rounded Laplace draws. -/
def dpPreClampPair (c : PartyClient) (eta1 eta2 : ℤ) : ℕ × ℕ :=
  let r := local_comp1 c
  (addNoiseInt r.2.1 eta1, addNoiseInt r.2.2 eta2)

/-- DP wrapper state (struct DPClient in src/party/dp_client.rs): the
wrapped client, the noise level, the scale function, and the audit log of
drawn noises. -/
structure DPClient where
  client : PartyClient
  noise_level : NoiseLevel
  get_scale_fn : NoiseLevel → ℕ → ℕ → ℝ
  noise_array : List ℝ

/-- DPClient::new. -/
def DPClient.new (client : PartyClient) (get_scale_fn : NoiseLevel → ℕ → ℕ → ℝ)
    (noise_level : NoiseLevel) : DPClient :=
  { client := client
    noise_level := noise_level
    get_scale_fn := get_scale_fn
    noise_array := [] }

/-- DPClient::add_noise with the uniform draw p made explicit: the
effective database size is the search-range width (at least 1) for min/max
queries and the full database size otherwise; the Laplace draw is logged
and its rounded value added to the count, clamped at 0. -/
noncomputable def DPClient.add_noise (dp : DPClient) (result : ℕ) (p : ℝ) :
    DPClient × ℕ :=
  let db_size : ℕ :=
    if dp.client.k = 1 ∨ dp.client.k = dp.client.databases_size
    then max (dp.client.search_range_idx.2 - dp.client.search_range_idx.1) 1
    else dp.client.database.length
  let scale := dp.get_scale_fn dp.noise_level result db_size
  let noise := laplace_point scale p
  ({ dp with noise_array := dp.noise_array ++ [noise] },
   addNoiseInt result (rustRound noise))

/-- DPClient::local_computation with the two uniform draws explicit: run
local_comp1 on the wrapped client, noise both counts, clamp their sum to
the database size, and encrypt (identity in the exact-crypto model). -/
noncomputable def DPClient.local_computation (dp : DPClient) (p1 p2 : ℝ) :
    DPClient × ℕ × ℕ :=
  let r := local_comp1 dp.client
  let dp1 : DPClient := { dp with client := r.1 }
  let s1 := dp1.add_noise r.2.1 p1
  let s2 := s1.1.add_noise r.2.2 p2
  (s2.1, dpClamp s2.1.client.database.length s1.2 s2.2)

/-- DPClient::update_search_range delegates to the wrapped client. -/
def DPClient.update_search_range (dp : DPClient) (u : UpdateSearchRange) :
    DPClient × Option ℤ :=
  let r := DPKRE.update_search_range dp.client u
  ({ dp with client := r.1 }, r.2)

/-- The verdict-application loop of the driver over DP parties. -/
def dpApplyUpdates (u : UpdateSearchRange) :
    List DPClient → List DPClient × Option ℤ
  | [] => ([], none)
  | dp :: dps =>
    let r := dp.update_search_range u
    match r.2 with
    | some v => (r.1 :: dps, some v)
    | none =>
      let rest := dpApplyUpdates u dps
      (r.1 :: rest.1, rest.2)

/-- Phase A over DP parties: each party in order consumes its pair of
uniform draws (party index i draws draw i). -/
noncomputable def dpPhaseA (draw : ℕ → ℝ × ℝ) :
    ℕ → List DPClient → List (DPClient × ℕ × ℕ)
  | _, [] => []
  | i, dp :: dps =>
    dp.local_computation (draw i).1 (draw i).2 :: dpPhaseA draw (i + 1) dps

/-- One round of the in-process driver over DP parties. -/
noncomputable def dpProtocolRound (s : PartyServer) (draw : ℕ → ℝ × ℝ)
    (dps : List DPClient) : List DPClient × Option ℤ :=
  let comps := dpPhaseA draw 0 dps
  let dps2 := comps.map (fun r => r.1)
  let sums := s.add_ciphertexts (comps.map (fun r => r.2.1)) (comps.map (fun r => r.2.2))
  let update := calculate_update s sums.1 sums.2
  dpApplyUpdates update dps2

/-- The driver loop over DP parties, with draws indexed by round then
party. -/
noncomputable def dpLeakyKthRankedElement (s : PartyServer) (draws : ℕ → ℕ → ℝ × ℝ) :
    ℕ → ℕ → List DPClient → Option ℤ
  | _, 0, _ => none
  | round, fuel + 1, dps =>
    let r := dpProtocolRound s (draws round) dps
    match r.2 with
    | some v => some v
    | none => dpLeakyKthRankedElement s draws (round + 1) fuel r.1

/-- create_server_dp_clients (src/utils/protocol.rs): wrap each client of
create_server_clients in a DPClient. -/
noncomputable def create_server_dp_clients (k : ℕ) (databases : List (List ℤ))
    (get_scale_fn : NoiseLevel → ℕ → ℕ → ℝ) (noise_level : NoiseLevel) :
    Option (PartyServer × List DPClient) :=
  (create_server_clients k databases).map (fun sc =>
    (sc.1, sc.2.map (fun c => DPClient.new c get_scale_fn noise_level)))

/-! ## Characterisation of the scanning fold -/

theorem localScan_go (m : ℤ) (l : List ℤ) : ∀ (i l0 g0 : ℕ) (gidx : Option ℕ),
    List.foldl (scanStep m) ((l0, g0), gidx) (List.enumFrom i l) =
      ((l0 + countLt l m, g0 + countGt l m),
       Option.orElse gidx (fun _ => (firstIdxGt m l).map (· + i))) := by
  induction l with
  | nil =>
    intro i l0 g0 gidx
    cases gidx <;> simp [countLt, countGt, firstIdxGt, Option.orElse]
  | cons x xs ih =>
    intro i l0 g0 gidx
    rw [List.enumFrom_cons, List.foldl_cons]
    rcases lt_trichotomy x m with hx | hx | hx
    · have hnx : ¬ m < x := by omega
      rw [show scanStep m ((l0, g0), gidx) (i, x) = ((l0 + 1, g0), gidx) by
        simp [scanStep, hx, hnx]]
      rw [ih (i + 1) (l0 + 1) g0 gidx]
      have h1 : countLt (x :: xs) m = countLt xs m + 1 := by
        simp [countLt, List.countP_cons, hx]
      have h2 : countGt (x :: xs) m = countGt xs m := by
        simp [countGt, List.countP_cons, hnx]
      have h3 : firstIdxGt m (x :: xs) = (firstIdxGt m xs).map (· + 1) := by
        simp [firstIdxGt, hnx]
      rw [h1, h2, h3,
        show l0 + 1 + countLt xs m = l0 + (countLt xs m + 1) by omega]
      congr 1
      cases gidx <;> cases hfi : firstIdxGt m xs <;>
        simp [Option.orElse] <;> omega
    · subst hx
      have hnx : ¬ x < x := by omega
      rw [show scanStep x ((l0, g0), gidx) (i, x) = ((l0, g0), gidx) by
        simp [scanStep, hnx]]
      rw [ih (i + 1) l0 g0 gidx]
      have h3 : firstIdxGt x (x :: xs) = (firstIdxGt x xs).map (· + 1) := by
        simp [firstIdxGt, hnx]
      have h1 : countLt (x :: xs) x = countLt xs x := by
        simp [countLt, List.countP_cons, hnx]
      have h2 : countGt (x :: xs) x = countGt xs x := by
        simp [countGt, List.countP_cons, hnx]
      rw [h1, h2, h3]
      congr 1
      cases gidx <;> cases hfi : firstIdxGt x xs <;>
        simp [Option.orElse] <;> omega
    · have hnx : ¬ x < m := by omega
      rw [show scanStep m ((l0, g0), gidx) (i, x) =
          ((l0, g0 + 1), some (gidx.getD i)) by simp [scanStep, hx, hnx]]
      rw [ih (i + 1) l0 (g0 + 1) (some (gidx.getD i))]
      have h1 : countLt (x :: xs) m = countLt xs m := by
        simp [countLt, List.countP_cons, hnx]
      have h2 : countGt (x :: xs) m = countGt xs m + 1 := by
        simp [countGt, List.countP_cons, hx]
      have h3 : firstIdxGt m (x :: xs) = some 0 := by
        simp [firstIdxGt, hx]
      rw [h1, h2, h3,
        show g0 + 1 + countGt xs m = g0 + (countGt xs m + 1) by omega]
      congr 1
      cases gidx <;> simp [Option.orElse]

theorem localScan_eq (m : ℤ) (l : List ℤ) :
    localScan m l = ((countLt l m, countGt l m), firstIdxGt m l) := by
  have h := localScan_go m l 0 0 0 none
  rw [localScan, List.enum, h]
  cases hf : firstIdxGt m l <;> simp [Option.orElse]

/-- The scanned range of local_comp1 as a function of the state. -/
def scannedRange (c : PartyClient) : List ℤ :=
  if c.k = 1 ∨ c.k = c.databases_size
  then (c.database.drop c.search_range_idx.1).take
    (c.search_range_idx.2 - c.search_range_idx.1)
  else c.database

theorem local_comp1_eq (c : PartyClient) :
    local_comp1 c =
      ({ c with
          m := avgFloor c.search_range.1 c.search_range.2
          greater_than_m_idx :=
            (firstIdxGt (avgFloor c.search_range.1 c.search_range.2)
              (scannedRange c)).map (· + c.search_range_idx.1) },
       countLt (scannedRange c) (avgFloor c.search_range.1 c.search_range.2),
       countGt (scannedRange c) (avgFloor c.search_range.1 c.search_range.2)) := by
  rw [local_comp1, scannedRange]
  by_cases h : c.k = 1 ∨ c.k = c.databases_size <;>
    simp only [h, if_true, if_false, localScan_eq]

/-! ## Counting lemmas -/

/-- Number of elements of l at least m. -/
def countGe (l : List ℤ) (m : ℤ) : ℕ := l.countP (fun x => m ≤ x)

theorem countLt_append (l1 l2 : List ℤ) (m : ℤ) :
    countLt (l1 ++ l2) m = countLt l1 m + countLt l2 m :=
  List.countP_append _ _ _

theorem countGt_append (l1 l2 : List ℤ) (m : ℤ) :
    countGt (l1 ++ l2) m = countGt l1 m + countGt l2 m :=
  List.countP_append _ _ _

theorem countLt_le_length (l : List ℤ) (m : ℤ) : countLt l m ≤ l.length :=
  List.countP_le_length _

theorem countGt_le_length (l : List ℤ) (m : ℤ) : countGt l m ≤ l.length :=
  List.countP_le_length _

theorem countLt_sublist (l1 l2 : List ℤ) (m : ℤ) (h : List.Sublist l1 l2) :
    countLt l1 m ≤ countLt l2 m := h.countP_le _

theorem countGt_sublist (l1 l2 : List ℤ) (m : ℤ) (h : List.Sublist l1 l2) :
    countGt l1 m ≤ countGt l2 m := h.countP_le _

theorem countLt_perm (l1 l2 : List ℤ) (m : ℤ) (h : List.Perm l1 l2) :
    countLt l1 m = countLt l2 m := h.countP_eq _

theorem countGt_perm (l1 l2 : List ℤ) (m : ℤ) (h : List.Perm l1 l2) :
    countGt l1 m = countGt l2 m := h.countP_eq _

theorem countLe_perm (l1 l2 : List ℤ) (m : ℤ) (h : List.Perm l1 l2) :
    countLe l1 m = countLe l2 m := h.countP_eq _

theorem countLe_add_countGt (l : List ℤ) (m : ℤ) :
    countLe l m + countGt l m = l.length := by
  induction l with
  | nil => simp [countLe, countGt]
  | cons y ys ih =>
    simp only [countLe, countGt, List.countP_cons, List.length_cons] at *
    by_cases hy : y ≤ m
    · have hy2 : ¬ m < y := by omega
      simp [hy, hy2] <;> omega
    · have hy2 : m < y := by omega
      simp [hy, hy2] <;> omega

theorem countLt_add_countGe (l : List ℤ) (m : ℤ) :
    countLt l m + countGe l m = l.length := by
  induction l with
  | nil => simp [countLt, countGe]
  | cons y ys ih =>
    simp only [countLt, countGe, List.countP_cons, List.length_cons] at *
    by_cases hy : y < m
    · have hy2 : ¬ m ≤ y := by omega
      simp [hy, hy2] <;> omega
    · have hy2 : m ≤ y := by omega
      simp [hy, hy2] <;> omega

theorem countLt_mono (l : List ℤ) (m1 m2 : ℤ) (h : m1 ≤ m2) :
    countLt l m1 ≤ countLt l m2 :=
  List.countP_mono_left (fun x _ hx => by simp at hx ⊢; omega)

theorem countLe_mono (l : List ℤ) (m1 m2 : ℤ) (h : m1 ≤ m2) :
    countLe l m1 ≤ countLe l m2 :=
  List.countP_mono_left (fun x _ hx => by simp at hx ⊢; omega)

theorem countLe_le_countLt (l : List ℤ) (m1 m2 : ℤ) (h : m1 < m2) :
    countLe l m1 ≤ countLt l m2 :=
  List.countP_mono_left (fun x _ hx => by simp at hx ⊢; omega)

theorem countGe_le_countGt (l : List ℤ) (m1 m2 : ℤ) (h : m1 < m2) :
    countGe l m2 ≤ countGt l m1 :=
  List.countP_mono_left (fun x _ hx => by simp at hx ⊢; omega)

theorem one_le_countLt (l : List ℤ) (m x : ℤ) (hx : x ∈ l) (hlt : x < m) :
    1 ≤ countLt l m := by
  have h : 0 < l.countP (fun y : ℤ => y < m) :=
    List.countP_pos_iff.2 ⟨x, hx, by simp [hlt]⟩
  rw [countLt]
  omega

theorem one_le_countGt (l : List ℤ) (m x : ℤ) (hx : x ∈ l) (hgt : m < x) :
    1 ≤ countGt l m := by
  have h : 0 < l.countP (fun y : ℤ => m < y) :=
    List.countP_pos_iff.2 ⟨x, hx, by simp [hgt]⟩
  rw [countGt]
  omega

theorem one_le_countLe (l : List ℤ) (m x : ℤ) (hx : x ∈ l) (hle : x ≤ m) :
    1 ≤ countLe l m := by
  have h : 0 < l.countP (fun y : ℤ => y ≤ m) :=
    List.countP_pos_iff.2 ⟨x, hx, by simp [hle]⟩
  rw [countLe]
  omega

theorem one_le_countGe (l : List ℤ) (m x : ℤ) (hx : x ∈ l) (hge : m ≤ x) :
    1 ≤ countGe l m := by
  have h : 0 < l.countP (fun y : ℤ => m ≤ y) :=
    List.countP_pos_iff.2 ⟨x, hx, by simp [hge]⟩
  rw [countGe]
  omega

theorem countGt_lt_length (l : List ℤ) (m x : ℤ) (hx : x ∈ l) (hle : x ≤ m) :
    countGt l m < l.length := by
  have h1 := countLe_add_countGt l m
  have h2 := one_le_countLe l m x hx hle
  omega

theorem countLt_lt_length (l : List ℤ) (m x : ℤ) (hx : x ∈ l) (hge : m ≤ x) :
    countLt l m < l.length := by
  have h1 := countLt_add_countGe l m
  have h2 := one_le_countGe l m x hx hge
  omega

theorem countLt_eq_zero (l : List ℤ) (m : ℤ) :
    countLt l m = 0 ↔ ∀ x ∈ l, ¬(x < m) := by
  rw [countLt, List.countP_eq_zero]
  constructor
  · intro h x hx hlt
    exact absurd (h x hx) (by simp [hlt])
  · intro h x hx
    simp [h x hx]

theorem countGt_eq_zero (l : List ℤ) (m : ℤ) :
    countGt l m = 0 ↔ ∀ x ∈ l, ¬(m < x) := by
  rw [countGt, List.countP_eq_zero]
  constructor
  · intro h x hx hlt
    exact absurd (h x hx) (by simp [hlt])
  · intro h x hx
    simp [h x hx]

/-! ## firstIdxGt lemmas -/

theorem firstIdxGt_cons_pos (m y : ℤ) (ys : List ℤ) (hy : m < y) :
    firstIdxGt m (y :: ys) = some 0 := by
  simp [firstIdxGt, hy]

theorem firstIdxGt_cons_neg (m y : ℤ) (ys : List ℤ) (hy : ¬(m < y)) :
    firstIdxGt m (y :: ys) = (firstIdxGt m ys).map (· + 1) := by
  simp [firstIdxGt, hy]

theorem firstIdxGt_none_iff (m : ℤ) (l : List ℤ) :
    firstIdxGt m l = none ↔ ∀ x ∈ l, ¬(m < x) := by
  induction l with
  | nil => simp [firstIdxGt]
  | cons y ys ih =>
    by_cases hy : m < y
    · rw [firstIdxGt_cons_pos m y ys hy]
      simp only [List.mem_cons]
      constructor
      · intro h; exact absurd h (by simp)
      · intro h; exact absurd hy (h y (Or.inl rfl))
    · rw [firstIdxGt_cons_neg m y ys hy]
      cases hfi : firstIdxGt m ys with
      | none =>
        constructor
        · intro _ x hx
          rcases List.mem_cons.1 hx with hx | hx
          · rw [hx]; exact hy
          · exact (ih.1 hfi) x hx
        · intro _; rfl
      | some g2 =>
        constructor
        · intro h; exact absurd h (by simp)
        · intro h
          have : firstIdxGt m ys = none :=
            ih.2 (fun x hx => h x (List.mem_cons.2 (Or.inr hx)))
          rw [hfi] at this
          exact absurd this (by simp)

theorem firstIdxGt_some_lt (m : ℤ) (l : List ℤ) (g : ℕ)
    (h : firstIdxGt m l = some g) : g < l.length := by
  induction l generalizing g with
  | nil => simp [firstIdxGt] at h
  | cons y ys ih =>
    by_cases hy : m < y
    · rw [firstIdxGt_cons_pos m y ys hy] at h
      simp at h
      simp [← h]
    · rw [firstIdxGt_cons_neg m y ys hy] at h
      cases hfi : firstIdxGt m ys with
      | none => rw [hfi] at h; simp at h
      | some g2 =>
        rw [hfi] at h
        simp at h
        have := ih g2 hfi
        simp
        omega

theorem firstIdxGt_take (m : ℤ) (l : List ℤ) (g : ℕ)
    (h : firstIdxGt m l = some g) : ∀ x ∈ l.take g, ¬(m < x) := by
  induction l generalizing g with
  | nil => simp
  | cons y ys ih =>
    by_cases hy : m < y
    · rw [firstIdxGt_cons_pos m y ys hy] at h
      simp at h
      simp [← h]
    · rw [firstIdxGt_cons_neg m y ys hy] at h
      cases hfi : firstIdxGt m ys with
      | none => rw [hfi] at h; simp at h
      | some g2 =>
        rw [hfi] at h
        simp at h
        intro x hx
        rw [← h, List.take_succ_cons] at hx
        rcases List.mem_cons.1 hx with hx | hx
        · rw [hx]; exact hy
        · exact ih g2 hfi x hx

theorem firstIdxGt_drop (m : ℤ) (l : List ℤ) (g : ℕ)
    (hs : l.Sorted (· ≤ ·)) (h : firstIdxGt m l = some g) :
    ∀ x ∈ l.drop g, m < x := by
  induction l generalizing g with
  | nil => simp
  | cons y ys ih =>
    rw [List.sorted_cons] at hs
    by_cases hy : m < y
    · rw [firstIdxGt_cons_pos m y ys hy] at h
      simp at h
      rw [← h]
      intro x hx
      rw [List.drop_zero] at hx
      rcases List.mem_cons.1 hx with hx | hx
      · rw [hx]; exact hy
      · exact lt_of_lt_of_le hy (hs.1 x hx)
    · rw [firstIdxGt_cons_neg m y ys hy] at h
      cases hfi : firstIdxGt m ys with
      | none => rw [hfi] at h; simp at h
      | some g2 =>
        rw [hfi] at h
        simp at h
        intro x hx
        rw [← h, List.drop_succ_cons] at hx
        exact ih g2 hs.2 hfi x hx

/-! ## Rank of an index in a sorted list -/

theorem sorted_rank (s : List ℤ) (hs : s.Sorted (· ≤ ·)) :
    ∀ (i : ℕ) (h : i < s.length),
      countLt s (s[i]) ≤ i ∧ i + 1 ≤ countLe s (s[i]) := by
  induction s with
  | nil => intro i h; simp at h
  | cons y ys ih =>
    intro i h
    rw [List.sorted_cons] at hs
    match i with
    | 0 =>
      have hget : (y :: ys)[0] = y := rfl
      rw [hget]
      constructor
      · have h0 : countLt (y :: ys) y = countLt ys y := by
          simp [countLt, List.countP_cons]
        rw [h0]
        have : countLt ys y = 0 := by
          rw [countLt_eq_zero]
          intro x hx
          have := hs.1 x hx
          omega
        omega
      · have h0 : countLe (y :: ys) y = countLe ys y + 1 := by
          simp [countLe, List.countP_cons]
        omega
    | i + 1 =>
      have hlen : i < ys.length := by simp at h; omega
      have hget : (y :: ys)[i + 1] = ys[i] := rfl
      rw [hget]
      obtain ⟨ih1, ih2⟩ := ih hs.2 i hlen
      have hyle : y ≤ ys[i] := hs.1 _ (List.getElem_mem hlen)
      constructor
      · have h0 : countLt (y :: ys) (ys[i]) ≤ countLt ys (ys[i]) + 1 := by
          simp only [countLt, List.countP_cons]
          split <;> omega
        omega
      · have h0 : countLe (y :: ys) (ys[i]) = countLe ys (ys[i]) + 1 := by
          simp [countLe, List.countP_cons, hyle]
        omega

/-! ## Arithmetic of the DP clamp -/

theorem roundHalfNat_le (a s d : ℕ) (ha : a ≤ s) (hd : d ≤ s) :
    roundHalfNat ((a : ℚ) / (s : ℚ) * (d : ℚ)) ≤ a := by
  rcases Nat.eq_zero_or_pos s with hs | hs
  · subst hs
    have ha0 : a = 0 := by omega
    have hd0 : d = 0 := by omega
    subst ha0; subst hd0
    norm_num [roundHalfNat]
  · have hsq : (0 : ℚ) < (s : ℚ) := by exact_mod_cast hs
    have hx : (a : ℚ) / (s : ℚ) * (d : ℚ) ≤ (a : ℚ) := by
      rw [div_mul_eq_mul_div, div_le_iff₀ hsq]
      have hdq : (d : ℚ) ≤ (s : ℚ) := by exact_mod_cast hd
      have haq : (0 : ℚ) ≤ (a : ℚ) := by positivity
      nlinarith
    have hfloor : ⌊(a : ℚ) / (s : ℚ) * (d : ℚ) + 1 / 2⌋ ≤ (a : ℤ) := by
      have : (a : ℚ) / (s : ℚ) * (d : ℚ) + 1 / 2 < (a : ℚ) + 1 := by linarith
      have h2 := Int.floor_le_floor (α := ℚ) (le_of_lt this)
      have h3 : ⌊(a : ℚ) + 1⌋ = (a : ℤ) + 1 := by
        rw [show ((a : ℚ) + 1) = ((a + 1 : ℤ) : ℚ) by push_cast; ring]
        exact Int.floor_intCast _
      have h4 : ⌊(a : ℚ) / (s : ℚ) * (d : ℚ) + 1 / 2⌋ < (a : ℤ) + 1 := by
        have := Int.floor_lt.2 (lt_of_lt_of_le this (by
          rw [show ((a : ℚ) + 1) = (((a : ℤ) + 1 : ℤ) : ℚ) by push_cast; ring]))
        exact this
      omega
    rw [roundHalfNat]
    omega

theorem roundHalfNat_sum_ge (l g len : ℕ) (h : len < l + g) :
    l + g - len ≤ roundHalfNat ((l : ℚ) / ((l + g : ℕ) : ℚ) * ((l + g - len : ℕ) : ℚ)) +
      roundHalfNat ((g : ℚ) / ((l + g : ℕ) : ℚ) * ((l + g - len : ℕ) : ℚ)) := by
  have hs : 0 < l + g := by omega
  have hsq : (0 : ℚ) < ((l + g : ℕ) : ℚ) := by exact_mod_cast hs
  set x : ℚ := (l : ℚ) / ((l + g : ℕ) : ℚ) * ((l + g - len : ℕ) : ℚ) with hxdef
  set y : ℚ := (g : ℚ) / ((l + g : ℕ) : ℚ) * ((l + g - len : ℕ) : ℚ) with hydef
  have hcast : ((l + g : ℕ) : ℚ) = (l : ℚ) + (g : ℚ) := by push_cast; ring
  have hxy : x + y = ((l + g - len : ℕ) : ℚ) := by
    have hstep : x + y = ((l : ℚ) + (g : ℚ)) / ((l + g : ℕ) : ℚ) *
        ((l + g - len : ℕ) : ℚ) := by
      rw [hxdef, hydef]; ring
    rw [hstep, ← hcast, div_self (ne_of_gt hsq), one_mul]
  have hx0 : 0 ≤ x := by rw [hxdef]; positivity
  have hy0 : 0 ≤ y := by rw [hydef]; positivity
  have hfx : (x + 1 / 2) - 1 < ⌊x + 1 / 2⌋ := Int.sub_one_lt_floor _
  have hfy : (y + 1 / 2) - 1 < ⌊y + 1 / 2⌋ := Int.sub_one_lt_floor _
  have hge : ((l + g - len : ℕ) : ℤ) ≤ ⌊x + 1 / 2⌋ + ⌊y + 1 / 2⌋ := by
    have hsum : ((l + g - len : ℕ) : ℚ) - 1 <
        ((⌊x + 1 / 2⌋ : ℤ) : ℚ) + ((⌊y + 1 / 2⌋ : ℤ) : ℚ) := by
      have hx2 := Int.floor_le (x + 1 / 2)
      linarith
    have hsum2 : ((l + g - len : ℕ) : ℤ) - 1 < ⌊x + 1 / 2⌋ + ⌊y + 1 / 2⌋ := by
      exact_mod_cast hsum
    omega
  have hfx0 : 0 ≤ ⌊x + 1 / 2⌋ := Int.floor_nonneg.2 (by linarith)
  have hfy0 : 0 ≤ ⌊y + 1 / 2⌋ := Int.floor_nonneg.2 (by linarith)
  rw [roundHalfNat, roundHalfNat]
  omega

theorem dpClamp_le (len less greater : ℕ) :
    (dpClamp len less greater).1 + (dpClamp len less greater).2 ≤ len := by
  rw [dpClamp]
  by_cases h : less + greater > len
  · simp only [h, if_true]
    have h1 := roundHalfNat_le less (less + greater) (less + greater - len)
      (by omega) (by omega)
    have h2 := roundHalfNat_le greater (less + greater) (less + greater - len)
      (by omega) (by omega)
    have h3 := roundHalfNat_sum_ge less greater len (by omega)
    omega
  · simp only [h, if_false]
    omega

/-- Concrete party state used to exhibit the pre-clamp violation of the
counts-sum invariant: one element, a middle-rank k, raw counts (0, 0). -/
def c4State : PartyClient :=
  { database := [0]
    idx := 0
    n := 1
    k := 2
    databases_size := 5
    search_range := (-1, 1)
    search_range_idx := (0, 1)
    greater_than_m_idx := none
    m := 0
    pk := 0
    key_share := 0 }

/-- Concrete party state with k = 4 ∉ {1, N}, lo = 3: the whole database
is scanned but the stored greater-index is offset by lo anyway.  This
state is reached from create_server_clients 4 [[1,2,3,4,5]] after one
SearchAbove round. -/
def c6State : PartyClient :=
  { database := [1, 2, 3, 4, 5]
    idx := 0
    n := 1
    k := 4
    databases_size := 5
    search_range := (4, 5)
    search_range_idx := (3, 5)
    greater_than_m_idx := none
    m := 3
    pk := 0
    key_share := 0 }

/-- Concrete min-query state used as witness input for local_comp1. -/
def c6WitnessState : PartyClient :=
  { database := [1, 5, 9]
    idx := 0
    n := 1
    k := 1
    databases_size := 3
    search_range := (1, 9)
    search_range_idx := (0, 3)
    greater_than_m_idx := none
    m := 5
    pk := 0
    key_share := 0 }

/-! ## Claim theorems: C2, C4, C6, C7, C9, C10 -/

/-- C2: the coordinator verdict calculate_update returns Abort when a sum
exceeds N = databases_size, else SearchBelow when sum_lt ≥ k, else
SearchAbove when sum_gt > N - k, else FoundK, with the first matching
branch winning (so SearchBelow is checked before SearchAbove); in
particular N = 10, k = 5, sum_lt = sum_gt = 5 yields SearchBelow. -/
theorem claim_C2_calculate_update (s : PartyServer) (lt gt : ℕ)
    (hk : s.k ≤ s.databases_size) :
    ((s.databases_size < lt ∨ s.databases_size < gt) →
      calculate_update s lt gt = .Abort) ∧
    (lt ≤ s.databases_size → gt ≤ s.databases_size → s.k ≤ lt →
      calculate_update s lt gt = .SearchBelow) ∧
    (lt ≤ s.databases_size → gt ≤ s.databases_size → lt < s.k →
      s.databases_size - s.k < gt → calculate_update s lt gt = .SearchAbove) ∧
    (lt ≤ s.databases_size → gt ≤ s.databases_size → lt < s.k →
      gt ≤ s.databases_size - s.k → calculate_update s lt gt = .FoundK) ∧
    calculate_update { n := 2, pk := 0, k := 5, databases_size := 10 } 5 5 =
      .SearchBelow := by
  refine ⟨?_, ?_, ?_, ?_, by decide⟩ <;> intro h1 <;>
    simp only [calculate_update] <;> intros <;>
    repeat first
    | rfl
    | rw [if_pos (by omega)]
    | rw [if_neg (by omega)]

/-- Witness for C2 at the spec's tie-break instance. -/
theorem claim_C2_witness :
    calculate_update { n := 2, pk := 0, k := 5, databases_size := 10 } 5 5 =
      .SearchBelow :=
  (claim_C2_calculate_update { n := 2, pk := 0, k := 5, databases_size := 10 }
    5 5 (by decide)).2.2.2.2

/-- C4 (amended): the clamped pair that DPClient::local_computation passes
to encryption always satisfies less + greater ≤ |D_i|, for every state and
every outcome of the two uniform draws; the bound does NOT hold before the
clamp (see the counterexample). -/
theorem claim_C4_dp_counts_bounded (dp : DPClient) (p1 p2 : ℝ) :
    (dp.local_computation p1 p2).2.1 + (dp.local_computation p1 p2).2.2 ≤
      dp.client.database.length := by
  have h := dpClamp_le
    (((dp.local_computation p1 p2).1).client.database.length)
    ((({ dp with client := (local_comp1 dp.client).1 } : DPClient).add_noise
        (local_comp1 dp.client).2.1 p1).2)
    (((({ dp with client := (local_comp1 dp.client).1 } : DPClient).add_noise
        (local_comp1 dp.client).2.1 p1).1.add_noise
        (local_comp1 dp.client).2.2 p2).2)
  have hlen : ((dp.local_computation p1 p2).1).client.database.length =
      dp.client.database.length := by
    simp only [DPClient.local_computation, DPClient.add_noise]
    cases hc : local_comp1 dp.client with
    | mk c2 counts => simp [local_comp1_eq] at hc; simp [← hc.1]
  rw [hlen] at h
  simp only [DPClient.local_computation] at *
  exact h

/-- C4 counterexample: with raw counts (0, 0) on the database [0] and both
rounded Laplace draws equal to 1 (reachable for any noise level of
positive scale, since the rounded draw rustRound (laplace_point scale p)
takes the value 1 with positive probability), the pre-clamp pair sums to
2 > 1 = |D_i|: the invariant is false BEFORE the proportional clamp. -/
theorem claim_C4_counterexample :
    (dpPreClampPair c4State 1 1).1 + (dpPreClampPair c4State 1 1).2 = 2 ∧
    c4State.database.length = 1 := by
  constructor
  · rfl
  · rfl

/-- C6 counterexample: in a state with k = 4 ∉ {1, N}, the whole database
[1,2,3,4,5] is scanned (m = 4), the first element greater than m sits at
index 4 of the scanned range, but local_comp1 stores 4 + lo = 7 (lo = 3),
which is not the index of the first greater element and is even out of
bounds for the database: the lo offset is added although the claim's
"when applicable" excludes the whole-database scan. -/
theorem claim_C6_counterexample :
    (local_comp1 c6State).1.greater_than_m_idx = some 7 ∧
    scannedRange c6State = c6State.database ∧
    firstIdxGt (avgFloor 4 5) [1, 2, 3, 4, 5] = some 4 ∧
    (7 : ℕ) ≠ 4 ∧ c6State.database.length ≤ 7 := by
  refine ⟨by decide, by decide, by decide, by decide, by decide⟩

/-- C6 (amended): local_comp1 recomputes m = floor((a+b)/2), scans the
sub-range database[lo..hi] exactly when k = 1 or k = N and otherwise the
whole database, returns less/greater as the counts of scanned elements
strictly below/above m (elements equal to m in neither), and stores into
greater_than_m_idx the index within the scanned range of the first element
strictly greater than m offset by lo UNCONDITIONALLY (also when the whole
database was scanned), or None when no scanned element exceeds m.  The
hypotheses confine the state to the panic-free domain of the Rust slice
database[lo..hi]. -/
theorem claim_C6_local_comp1 (c : PartyClient)
    (h1 : c.search_range_idx.1 ≤ c.search_range_idx.2)
    (h2 : c.search_range_idx.2 ≤ c.database.length) :
    local_comp1 c =
      ({ c with
          m := avgFloor c.search_range.1 c.search_range.2
          greater_than_m_idx :=
            (firstIdxGt (avgFloor c.search_range.1 c.search_range.2)
              (scannedRange c)).map (· + c.search_range_idx.1) },
       countLt (scannedRange c) (avgFloor c.search_range.1 c.search_range.2),
       countGt (scannedRange c) (avgFloor c.search_range.1 c.search_range.2)) ∧
    scannedRange c = (if c.k = 1 ∨ c.k = c.databases_size
      then (c.database.drop c.search_range_idx.1).take
        (c.search_range_idx.2 - c.search_range_idx.1)
      else c.database) :=
  ⟨local_comp1_eq c, rfl⟩

/-- Witness for C6 (amended) at a concrete min-query state. -/
theorem claim_C6_witness :
    local_comp1 c6WitnessState =
      ({ c6WitnessState with greater_than_m_idx := some 2 }, 1, 1) := by
  have h := (claim_C6_local_comp1 c6WitnessState (by decide) (by decide)).1
  rw [h]
  decide

/-- C7: update_search_range returns Some(m) on FoundK; on SearchBelow sets
b to m - 1 and hi to greater_than_m_idx when set, returning None; on
SearchAbove sets a to m + 1 and lo to greater_than_m_idx when set,
returning None; on Abort returns None without changes. -/
theorem claim_C7_update_search_range (c : PartyClient) :
    update_search_range c .FoundK = (c, some c.m) ∧
    update_search_range c .SearchBelow =
      ({ c with
          search_range := (c.search_range.1, c.m - 1)
          search_range_idx :=
            (c.search_range_idx.1,
             c.greater_than_m_idx.getD c.search_range_idx.2) }, none) ∧
    update_search_range c .SearchAbove =
      ({ c with
          search_range := (c.m + 1, c.search_range.2)
          search_range_idx :=
            (c.greater_than_m_idx.getD c.search_range_idx.1,
             c.search_range_idx.2) }, none) ∧
    update_search_range c .Abort = (c, none) := by
  refine ⟨rfl, ?_, ?_, rfl⟩ <;>
    cases hg : c.greater_than_m_idx <;>
      simp [update_search_range, hg]

/-- C10: update_search_range only ever touches the search-range bounds and
the sub-range indices: database, idx, n, k, databases_size, m,
greater_than_m_idx and the key material are unchanged by every verdict;
FoundK and Abort change nothing at all; SearchBelow leaves the lower bound
and the start index unchanged; SearchAbove leaves the upper bound and the
end index unchanged. -/
theorem claim_C10_update_frame (c : PartyClient) (u : UpdateSearchRange) :
    (update_search_range c u).1.database = c.database ∧
    (update_search_range c u).1.idx = c.idx ∧
    (update_search_range c u).1.n = c.n ∧
    (update_search_range c u).1.k = c.k ∧
    (update_search_range c u).1.databases_size = c.databases_size ∧
    (update_search_range c u).1.m = c.m ∧
    (update_search_range c u).1.greater_than_m_idx = c.greater_than_m_idx ∧
    (update_search_range c u).1.pk = c.pk ∧
    (update_search_range c u).1.key_share = c.key_share ∧
    ((u = .FoundK ∨ u = .Abort) → (update_search_range c u).1 = c) ∧
    (u = .SearchBelow →
      (update_search_range c u).1.search_range.1 = c.search_range.1 ∧
      (update_search_range c u).1.search_range_idx.1 = c.search_range_idx.1) ∧
    (u = .SearchAbove →
      (update_search_range c u).1.search_range.2 = c.search_range.2 ∧
      (update_search_range c u).1.search_range_idx.2 = c.search_range_idx.2) := by
  cases u <;> cases hg : c.greater_than_m_idx <;>
    simp [update_search_range, hg]

/-! ## Construction lemmas and claims C9, C3 -/

theorem partyMins_forall2 (dbs : List (List ℤ)) (ms : List ℤ)
    (h : partyMins dbs = some ms) :
    List.Forall₂ (fun db mn => db.min? = some mn) dbs ms := by
  induction dbs generalizing ms with
  | nil =>
    rw [partyMins] at h
    cases h
    exact List.Forall₂.nil
  | cons d ds ih =>
    rw [partyMins] at h
    cases hd : d.min? <;> rw [hd] at h
    · simp at h
    · cases hds : partyMins ds <;> rw [hds] at h
      · simp at h
      · simp at h
        rw [← h]
        exact List.Forall₂.cons hd (ih _ hds)

theorem partyMaxs_forall2 (dbs : List (List ℤ)) (ms : List ℤ)
    (h : partyMaxs dbs = some ms) :
    List.Forall₂ (fun db mx => db.max? = some mx) dbs ms := by
  induction dbs generalizing ms with
  | nil =>
    rw [partyMaxs] at h
    cases h
    exact List.Forall₂.nil
  | cons d ds ih =>
    rw [partyMaxs] at h
    cases hd : d.max? <;> rw [hd] at h
    · simp at h
    · cases hds : partyMaxs ds <;> rw [hds] at h
      · simp at h
      · simp at h
        rw [← h]
        exact List.Forall₂.cons hd (ih _ hds)

theorem partyMins_isSome_iff (dbs : List (List ℤ)) :
    (partyMins dbs).isSome = true ↔ ∀ db ∈ dbs, db ≠ [] := by
  induction dbs with
  | nil => simp [partyMins]
  | cons d ds ih =>
    rw [partyMins]
    cases hd : d.min? with
    | none =>
      have hdnil : d = [] := List.min?_eq_none_iff.1 hd
      subst hdnil
      simp
    | some mn =>
      have hdne : d ≠ [] := by
        intro hnil
        subst hnil
        simp at hd
      cases hds : partyMins ds with
      | none =>
        rw [hds] at ih
        simp only [Option.isSome_none, Bool.false_eq_true, false_iff] at ih ⊢
        intro hall
        exact ih (fun db hdb => hall db (List.mem_cons.2 (Or.inr hdb)))
      | some ms =>
        rw [hds] at ih
        simp only [Option.isSome_some, true_iff] at ih
        simp only [Option.isSome_some, true_iff]
        intro db hdb
        rcases List.mem_cons.1 hdb with hdb | hdb
        · rw [hdb]; exact hdne
        · exact ih db hdb

theorem partyMaxs_isSome_iff (dbs : List (List ℤ)) :
    (partyMaxs dbs).isSome = true ↔ ∀ db ∈ dbs, db ≠ [] := by
  induction dbs with
  | nil => simp [partyMaxs]
  | cons d ds ih =>
    rw [partyMaxs]
    cases hd : d.max? with
    | none =>
      have hdnil : d = [] := List.max?_eq_none_iff.1 hd
      subst hdnil
      simp
    | some mx =>
      have hdne : d ≠ [] := by
        intro hnil
        subst hnil
        simp at hd
      cases hds : partyMaxs ds with
      | none =>
        rw [hds] at ih
        simp only [Option.isSome_none, Bool.false_eq_true, false_iff] at ih ⊢
        intro hall
        exact ih (fun db hdb => hall db (List.mem_cons.2 (Or.inr hdb)))
      | some ms =>
        rw [hds] at ih
        simp only [Option.isSome_some, true_iff] at ih
        simp only [Option.isSome_some, true_iff]
        intro db hdb
        rcases List.mem_cons.1 hdb with hdb | hdb
        · rw [hdb]; exact hdne
        · exact ih db hdb

theorem partyMins_length (dbs : List (List ℤ)) (ms : List ℤ)
    (h : partyMins dbs = some ms) : ms.length = dbs.length :=
  (List.Forall₂.length_eq (partyMins_forall2 dbs ms h)).symm

theorem partyMaxs_length (dbs : List (List ℤ)) (ms : List ℤ)
    (h : partyMaxs dbs = some ms) : ms.length = dbs.length :=
  (List.Forall₂.length_eq (partyMaxs_forall2 dbs ms h)).symm

theorem create_isSome_iff (k : ℕ) (dbs : List (List ℤ)) :
    (create_server_clients k dbs).isSome = true ↔
      dbs ≠ [] ∧ ∀ db ∈ dbs, db ≠ [] := by
  rw [create_server_clients]
  cases h1 : (partyMins dbs).bind List.min? with
  | none =>
    cases h2 : (partyMaxs dbs).bind List.max? with
    | none =>
      simp only [Option.isSome_none, Bool.false_eq_true, false_iff]
      intro hc
      cases hpm : partyMins dbs with
      | none =>
        exact absurd ((partyMins_isSome_iff dbs).2 hc.2) (by simp [hpm])
      | some ms =>
        rw [hpm, Option.some_bind] at h1
        have hnil : ms = [] := List.min?_eq_none_iff.1 h1
        have hlen := partyMins_length dbs ms hpm
        subst hnil
        simp at hlen
        exact hc.1 (List.length_eq_zero.1 hlen.symm)
    | some mx =>
      simp only [Option.isSome_none, Bool.false_eq_true, false_iff]
      intro hc
      cases hpm : partyMins dbs with
      | none =>
        exact absurd ((partyMins_isSome_iff dbs).2 hc.2) (by simp [hpm])
      | some ms =>
        rw [hpm, Option.some_bind] at h1
        have hnil : ms = [] := List.min?_eq_none_iff.1 h1
        have hlen := partyMins_length dbs ms hpm
        subst hnil
        simp at hlen
        exact hc.1 (List.length_eq_zero.1 hlen.symm)
  | some mn =>
    cases h2 : (partyMaxs dbs).bind List.max? with
    | none =>
      simp only [Option.isSome_none, Bool.false_eq_true, false_iff]
      intro hc
      cases hpm : partyMaxs dbs with
      | none =>
        exact absurd ((partyMaxs_isSome_iff dbs).2 hc.2) (by simp [hpm])
      | some ms =>
        rw [hpm, Option.some_bind] at h2
        have hnil : ms = [] := List.max?_eq_none_iff.1 h2
        have hlen := partyMaxs_length dbs ms hpm
        subst hnil
        simp at hlen
        exact hc.1 (List.length_eq_zero.1 hlen.symm)
    | some mx =>
      simp only [Option.isSome_some, true_iff]
      obtain ⟨ms, hms, hmin⟩ := Option.bind_eq_some.1 h1
      have hmsne : ms ≠ [] := by
        intro hnil
        subst hnil
        simp at hmin
      have hall : ∀ db ∈ dbs, db ≠ [] :=
        (partyMins_isSome_iff dbs).1 (by simp [hms])
      refine ⟨?_, hall⟩
      intro hnil
      subst hnil
      rw [show partyMins [] = some [] from rfl] at hms
      cases hms
      exact hmsne rfl

/-- C9 counterexample: construction succeeds with k = 0, succeeds with
k = 5 > N = 1, and PartyClient::new accepts an inverted range
globalMin > globalMax — none of the InputInvalid conditions except empty
databases is rejected at construction. -/
theorem claim_C9_counterexample :
    (create_server_clients 0 [[5]]).isSome = true ∧
    (create_server_clients 5 [[1]]).isSome = true ∧
    (PartyClient.new [3] 0 1 1 1 (10, 0) 0 0).search_range = (10, 0) := by
  refine ⟨by decide, by decide, by decide⟩

/-- C9 (amended): construction fails (the source panics on unwrap of an
empty minimum/maximum, modelled by none) exactly when the collection of
databases is empty or some database is empty; k = 0, k > N and an inverted
global range are accepted, no validation being performed. -/
theorem claim_C9_construction (k : ℕ) (dbs : List (List ℤ)) :
    ((create_server_clients k dbs).isSome = true ↔
      dbs ≠ [] ∧ ∀ db ∈ dbs, db ≠ []) ∧
    (PartyClient.new [3] 0 1 1 1 (10, 0) 0 0).search_range = (10, 0) :=
  ⟨create_isSome_iff k dbs, rfl⟩

/-- Coordinator of the Abort scenario: the plaintext sums of the party
below exceed databases_size = 1, so every round's verdict is Abort. -/
def c3Server : PartyServer :=
  { n := 1
    pk := 0
    k := 5
    databases_size := 1 }

/-- Party of the Abort scenario: both database elements fall below
m = 3, so sum_lt = 2 > 1 = databases_size at the coordinator. -/
def c3Party : PartyClient :=
  { database := [0, 2]
    idx := 0
    n := 1
    k := 5
    databases_size := 1
    search_range := (3, 3)
    search_range_idx := (0, 2)
    greater_than_m_idx := none
    m := 3
    pk := 0
    key_share := 0 }

/-- C3 (code bug): when the coordinator's verdict is Abort, the driver
does NOT terminate: update_search_range leaves every party unchanged and
returns None, and the loop of leaky_kth_ranked_element only breaks when
some update returns Some, so the same Abort round repeats forever and the
driver never returns — in particular it never returns None as the spec
requires.  Concretely, on this configuration the first verdict is Abort
and the run is none (still looping) for every fuel. -/
theorem claim_C3_abort_loops_forever :
    (local_comp1 c3Party).2 = (2, 0) ∧
    calculate_update c3Server 2 0 = .Abort ∧
    protocolRound c3Server [c3Party] = ([c3Party], none) ∧
    ∀ fuel, leaky_kth_ranked_element c3Server fuel [c3Party] = none := by
  refine ⟨by decide, by decide, by decide, ?_⟩
  intro fuel
  induction fuel with
  | zero => rfl
  | succ n ih =>
    rw [leaky_kth_ranked_element]
    rw [show protocolRound c3Server [c3Party] = ([c3Party], none) by decide]
    exact ih

/-! ## Protocol invariant and correctness development (claims C1, C5, C8) -/

/-- Total size N of all databases. -/
def sumLen (dbs : List (List ℤ)) : ℕ := (dbs.map List.length).sum

/-- Well-formedness of one party state over its source database db, for
shared search range [a, b]: the stored database is the sorted db, the
parameters agree, and for min/max queries the sub-range indices are in
bounds with every element cut off below the range strictly below a and
every element cut off above strictly above b. -/
def PState (k N : ℕ) (a b : ℤ) (db : List ℤ) (c : PartyClient) : Prop :=
  c.database = List.insertionSort (· ≤ ·) db ∧
  c.k = k ∧
  c.databases_size = N ∧
  c.search_range = (a, b) ∧
  ((k = 1 ∨ k = N) →
    c.search_range_idx.1 ≤ c.search_range_idx.2 ∧
    c.search_range_idx.2 ≤ c.database.length ∧
    (∀ x ∈ c.database.take c.search_range_idx.1, x < a) ∧
    (∀ x ∈ c.database.drop c.search_range_idx.2, b < x))

/-- The global invariant of the non-DP protocol between rounds: every
party is well-formed over its database with the common range [a, b], the
k-th element v lies in [a, b], and for extreme ranks the corresponding
bound is pinned to v (a = v for the minimum query, b = v for the maximum
query). -/
def Inv (dbs : List (List ℤ)) (k : ℕ) (a b : ℤ) (parties : List PartyClient) : Prop :=
  List.Forall₂ (PState k (sumLen dbs) a b) dbs parties ∧
  a ≤ get_kth_element dbs k ∧
  get_kth_element dbs k ≤ b ∧
  (k = 1 → a = get_kth_element dbs k) ∧
  (k = sumLen dbs → b = get_kth_element dbs k)

theorem avgFloor_bounds (a b : ℤ) (h : a ≤ b) :
    a ≤ avgFloor a b ∧ avgFloor a b ≤ b ∧
    2 * avgFloor a b ≤ a + b ∧ a + b ≤ 2 * avgFloor a b + 1 := by
  rw [avgFloor]
  omega

theorem take_scanned_drop (l : List ℤ) (lo hi : ℕ) (h1 : lo ≤ hi) :
    l = l.take lo ++ ((l.drop lo).take (hi - lo)) ++ l.drop hi := by
  have h3 : (l.drop lo).drop (hi - lo) = l.drop hi := by
    rw [List.drop_drop]
    congr 1
    omega
  rw [← h3, List.append_assoc, List.take_append_drop, List.take_append_drop]

theorem forall2_mem_right {α β : Type} (R : α → β → Prop) (l1 : List α)
    (l2 : List β) (y : β) (h : List.Forall₂ R l1 l2) (hy : y ∈ l2) :
    ∃ x ∈ l1, R x y := by
  induction h with
  | nil => simp at hy
  | cons hr hrest ih =>
    rcases List.mem_cons.1 hy with hy | hy
    · subst hy; exact ⟨_, List.mem_cons_self _ _, hr⟩
    · obtain ⟨x, hx, hxy⟩ := ih hy
      exact ⟨x, List.mem_cons.2 (Or.inr hx), hxy⟩

theorem forall2_mem_left {α β : Type} (R : α → β → Prop) (l1 : List α)
    (l2 : List β) (x : α) (h : List.Forall₂ R l1 l2) (hx : x ∈ l1) :
    ∃ y ∈ l2, R x y := by
  induction h with
  | nil => simp at hx
  | cons hr hrest ih =>
    rcases List.mem_cons.1 hx with hx | hx
    · subst hx; exact ⟨_, List.mem_cons_self _ _, hr⟩
    · obtain ⟨y, hy, hxy⟩ := ih hx
      exact ⟨y, List.mem_cons.2 (Or.inr hy), hxy⟩

theorem sorted_database (db : List ℤ) (c : PartyClient)
    (h : c.database = List.insertionSort (· ≤ ·) db) :
    c.database.Sorted (· ≤ ·) := by
  rw [h]
  exact List.sorted_insertionSort _ db

theorem perm_database (db : List ℤ) (c : PartyClient)
    (h : c.database = List.insertionSort (· ≤ ·) db) :
    List.Perm c.database db := by
  rw [h]
  exact List.perm_insertionSort _ db

/-- The scanned range is a sublist of the stored database. -/
theorem scannedRange_sublist (c : PartyClient) :
    List.Sublist (scannedRange c) c.database := by
  rw [scannedRange]
  by_cases h : c.k = 1 ∨ c.k = c.databases_size
  · rw [if_pos h]
    exact List.Sublist.trans (List.take_sublist _ _) (List.drop_sublist _ _)
  · rw [if_neg h]

theorem scannedRange_length (c : PartyClient) :
    (scannedRange c).length ≤ c.database.length :=
  (scannedRange_sublist c).length_le

/-- Rank characterisation of get_kth_element: it is a member of the union
with fewer than k elements strictly below it and at least k elements at
most it. -/
theorem kth_spec (dbs : List (List ℤ)) (k : ℕ) (hk1 : 1 ≤ k)
    (hkN : k ≤ sumLen dbs) :
    get_kth_element dbs k ∈ dbs.flatten ∧
    countLt dbs.flatten (get_kth_element dbs k) < k ∧
    k ≤ countLe dbs.flatten (get_kth_element dbs k) := by
  have hperm : List.Perm (List.insertionSort (· ≤ ·) dbs.flatten) dbs.flatten :=
    List.perm_insertionSort _ _
  have hlen : (List.insertionSort (· ≤ ·) dbs.flatten).length = sumLen dbs := by
    rw [hperm.length_eq, List.length_flatten, sumLen]
  have hik : k - 1 < (List.insertionSort (· ≤ ·) dbs.flatten).length := by
    omega
  have hget : get_kth_element dbs k =
      (List.insertionSort (· ≤ ·) dbs.flatten)[k - 1] := by
    rw [get_kth_element, List.getD_eq_getElem?_getD, List.getElem?_eq_getElem hik]
    rfl
  have hrank := sorted_rank (List.insertionSort (· ≤ ·) dbs.flatten)
    (List.sorted_insertionSort _ _) (k - 1) hik
  refine ⟨?_, ?_, ?_⟩
  · rw [hget]
    exact hperm.mem_iff.1 (List.getElem_mem hik)
  · rw [hget, ← countLt_perm _ _ _ hperm]
    omega
  · rw [hget, ← countLe_perm _ _ _ hperm]
    omega

theorem kth_lt_of_countLt (dbs : List (List ℤ)) (k : ℕ) (m : ℤ)
    (hk1 : 1 ≤ k) (hkN : k ≤ sumLen dbs)
    (h : k ≤ countLt dbs.flatten m) : get_kth_element dbs k < m := by
  obtain ⟨hv, hlt, hle⟩ := kth_spec dbs k hk1 hkN
  by_contra hcon
  push_neg at hcon
  have := countLt_mono dbs.flatten m (get_kth_element dbs k) hcon
  omega

theorem kth_gt_of_countGt (dbs : List (List ℤ)) (k : ℕ) (m : ℤ)
    (hk1 : 1 ≤ k) (hkN : k ≤ sumLen dbs)
    (h : sumLen dbs - k < countGt dbs.flatten m) :
    m < get_kth_element dbs k := by
  obtain ⟨hv, hlt, hle⟩ := kth_spec dbs k hk1 hkN
  have hpart := countLe_add_countGt dbs.flatten m
  have hlenU : dbs.flatten.length = sumLen dbs := by
    rw [List.length_flatten, sumLen]
  by_contra hcon
  push_neg at hcon
  have := countLe_mono dbs.flatten (get_kth_element dbs k) m hcon
  omega

theorem kth_eq_of_counts (dbs : List (List ℤ)) (k : ℕ) (m : ℤ)
    (hk1 : 1 ≤ k) (hkN : k ≤ sumLen dbs)
    (h1 : countLt dbs.flatten m < k) (h2 : countGt dbs.flatten m ≤ sumLen dbs - k) :
    m = get_kth_element dbs k := by
  obtain ⟨hv, hlt, hle⟩ := kth_spec dbs k hk1 hkN
  have hlenU : dbs.flatten.length = sumLen dbs := by
    rw [List.length_flatten, sumLen]
  rcases lt_trichotomy m (get_kth_element dbs k) with hc | hc | hc
  · have hge := countGe_le_countGt dbs.flatten m (get_kth_element dbs k) hc
    have hpart := countLt_add_countGe dbs.flatten (get_kth_element dbs k)
    omega
  · exact hc
  · have := countLe_le_countLt dbs.flatten (get_kth_element dbs k) m hc
    omega

/-- For the minimum query no element of the union is below v. -/
theorem kth_min_no_below (dbs : List (List ℤ)) (hkN : 1 ≤ sumLen dbs) :
    ∀ x ∈ dbs.flatten, ¬(x < get_kth_element dbs 1) := by
  obtain ⟨hv, hlt, hle⟩ := kth_spec dbs 1 (le_refl 1) hkN
  exact (countLt_eq_zero _ _).1 (by omega)

/-- For the maximum query no element of the union is above v. -/
theorem kth_max_no_above (dbs : List (List ℤ)) (hkN : 1 ≤ sumLen dbs) :
    ∀ x ∈ dbs.flatten, ¬(get_kth_element dbs (sumLen dbs) < x) := by
  obtain ⟨hv, hlt, hle⟩ := kth_spec dbs (sumLen dbs) hkN (le_refl _)
  have hpart := countLe_add_countGt dbs.flatten (get_kth_element dbs (sumLen dbs))
  have hlenU : dbs.flatten.length = sumLen dbs := by
    rw [List.length_flatten, sumLen]
  exact (countGt_eq_zero _ _).1 (by omega)

/-! ## Per-party scan facts under the invariant -/

theorem pstate_slicing_cond (k N : ℕ) (a b : ℤ) (db : List ℤ) (c : PartyClient)
    (hps : PState k N a b db c) :
    (c.k = 1 ∨ c.k = c.databases_size) ↔ (k = 1 ∨ k = N) := by
  rw [hps.2.1, hps.2.2.1]

theorem scanned_decomposition (k N : ℕ) (a b : ℤ) (db : List ℤ) (c : PartyClient)
    (hps : PState k N a b db c) (hsl : k = 1 ∨ k = N) :
    c.database = c.database.take c.search_range_idx.1 ++ scannedRange c ++
      c.database.drop c.search_range_idx.2 := by
  have hcond := (pstate_slicing_cond k N a b db c hps).2 hsl
  have hb := hps.2.2.2.2 hsl
  rw [scannedRange, if_pos hcond]
  exact take_scanned_drop c.database c.search_range_idx.1 c.search_range_idx.2 hb.1

theorem counts_le_db (k N : ℕ) (a b : ℤ) (db : List ℤ) (c : PartyClient) (m : ℤ)
    (hps : PState k N a b db c) :
    countLt (scannedRange c) m ≤ countLt db m ∧
    countGt (scannedRange c) m ≤ countGt db m ∧
    countLt (scannedRange c) m ≤ db.length ∧
    countGt (scannedRange c) m ≤ db.length := by
  have hsub := scannedRange_sublist c
  have hperm := perm_database db c hps.1
  have h1 : countLt (scannedRange c) m ≤ countLt db m := by
    calc countLt (scannedRange c) m ≤ countLt c.database m :=
          countLt_sublist _ _ m hsub
      _ = countLt db m := countLt_perm _ _ m hperm
  have h2 : countGt (scannedRange c) m ≤ countGt db m := by
    calc countGt (scannedRange c) m ≤ countGt c.database m :=
          countGt_sublist _ _ m hsub
      _ = countGt db m := countGt_perm _ _ m hperm
  have h3 := countLt_le_length db m
  have h4 := countGt_le_length db m
  exact ⟨h1, h2, by omega, by omega⟩

theorem vmem_scanned (k N : ℕ) (a b : ℤ) (db : List ℤ) (c : PartyClient) (v : ℤ)
    (hps : PState k N a b db c) (hva : a ≤ v) (hvb : v ≤ b) (hv : v ∈ db) :
    v ∈ scannedRange c := by
  have hperm := perm_database db c hps.1
  have hvdb : v ∈ c.database := hperm.mem_iff.2 hv
  by_cases hsl : k = 1 ∨ k = N
  · have hdec := scanned_decomposition k N a b db c hps hsl
    have hb := hps.2.2.2.2 hsl
    rw [hdec] at hvdb
    rcases List.mem_append.1 hvdb with hvdb | hvdb
    · rcases List.mem_append.1 hvdb with hvdb | hvdb
      · exact absurd (hb.2.2.1 v hvdb) (by omega)
      · exact hvdb
    · exact absurd (hb.2.2.2 v hvdb) (by omega)
  · have hcond : ¬(c.k = 1 ∨ c.k = c.databases_size) := by
      rw [pstate_slicing_cond k N a b db c hps]
      exact hsl
    rw [scannedRange, if_neg hcond]
    exact hvdb

theorem exact_countLt (k N : ℕ) (a b : ℤ) (db : List ℤ) (c : PartyClient) (m : ℤ)
    (hps : PState k N a b db c) (hnoA : ∀ x ∈ db, ¬(x < a)) (hmb : m ≤ b) :
    countLt (scannedRange c) m = countLt db m := by
  have hperm := perm_database db c hps.1
  by_cases hsl : k = 1 ∨ k = N
  · have hdec := scanned_decomposition k N a b db c hps hsl
    have hb := hps.2.2.2.2 hsl
    have hcdb : countLt c.database m = countLt db m := countLt_perm _ _ m hperm
    rw [hdec, countLt_append, countLt_append] at hcdb
    have htake : countLt (c.database.take c.search_range_idx.1) m = 0 := by
      rw [countLt_eq_zero]
      intro x hx
      have hxa := hb.2.2.1 x hx
      have hxdb : x ∈ db := hperm.mem_iff.1
        ((List.take_sublist _ _).mem hx)
      exact absurd hxa (by have := hnoA x hxdb; omega)
    have hdrop : countLt (c.database.drop c.search_range_idx.2) m = 0 := by
      rw [countLt_eq_zero]
      intro x hx
      have hxb := hb.2.2.2 x hx
      omega
    omega
  · have hcond : ¬(c.k = 1 ∨ c.k = c.databases_size) := by
      rw [pstate_slicing_cond k N a b db c hps]
      exact hsl
    rw [scannedRange, if_neg hcond]
    exact countLt_perm _ _ m hperm

theorem exact_countGt (k N : ℕ) (a b : ℤ) (db : List ℤ) (c : PartyClient) (m : ℤ)
    (hps : PState k N a b db c) (hnoB : ∀ x ∈ db, ¬(b < x)) (ham : a ≤ m) :
    countGt (scannedRange c) m = countGt db m := by
  have hperm := perm_database db c hps.1
  by_cases hsl : k = 1 ∨ k = N
  · have hdec := scanned_decomposition k N a b db c hps hsl
    have hb := hps.2.2.2.2 hsl
    have hcdb : countGt c.database m = countGt db m := countGt_perm _ _ m hperm
    rw [hdec, countGt_append, countGt_append] at hcdb
    have htake : countGt (c.database.take c.search_range_idx.1) m = 0 := by
      rw [countGt_eq_zero]
      intro x hx
      have hxa := hb.2.2.1 x hx
      omega
    have hdrop : countGt (c.database.drop c.search_range_idx.2) m = 0 := by
      rw [countGt_eq_zero]
      intro x hx
      have hxb := hb.2.2.2 x hx
      have hxdb : x ∈ db := hperm.mem_iff.1
        ((List.drop_sublist _ _).mem hx)
      exact absurd hxb (hnoB x hxdb)
    omega
  · have hcond : ¬(c.k = 1 ∨ c.k = c.databases_size) := by
      rw [pstate_slicing_cond k N a b db c hps]
      exact hsl
    rw [scannedRange, if_neg hcond]
    exact countGt_perm _ _ m hperm

/-! ## Aggregated phase-A sums -/

/-- Sum of all parties' less counts of this round. -/
def phaseLtSum (parties : List PartyClient) : ℕ :=
  (parties.map (fun c => (local_comp1 c).2.1)).sum

/-- Sum of all parties' greater counts of this round. -/
def phaseGtSum (parties : List PartyClient) : ℕ :=
  (parties.map (fun c => (local_comp1 c).2.2)).sum

theorem local_comp1_counts (c : PartyClient) (a b : ℤ)
    (h : c.search_range = (a, b)) :
    (local_comp1 c).2.1 = countLt (scannedRange c) (avgFloor a b) ∧
    (local_comp1 c).2.2 = countGt (scannedRange c) (avgFloor a b) := by
  rw [local_comp1_eq, h]
  exact ⟨rfl, rfl⟩

theorem phaseLtSum_cons (c : PartyClient) (parties : List PartyClient) :
    phaseLtSum (c :: parties) = (local_comp1 c).2.1 + phaseLtSum parties := by
  rw [phaseLtSum, phaseLtSum, List.map_cons, List.sum_cons]

theorem phaseGtSum_cons (c : PartyClient) (parties : List PartyClient) :
    phaseGtSum (c :: parties) = (local_comp1 c).2.2 + phaseGtSum parties := by
  rw [phaseGtSum, phaseGtSum, List.map_cons, List.sum_cons]

theorem agg_le_sumLen (k N : ℕ) (a b : ℤ) (dbs : List (List ℤ))
    (parties : List PartyClient)
    (h : List.Forall₂ (PState k N a b) dbs parties) :
    phaseLtSum parties ≤ sumLen dbs ∧ phaseGtSum parties ≤ sumLen dbs := by
  induction h with
  | nil => simp [phaseLtSum, phaseGtSum, sumLen]
  | @cons db c dbs2 parties2 hr hrest ih =>
    have hcounts := local_comp1_counts c a b hr.2.2.2.1
    have hle := counts_le_db k N a b db c (avgFloor a b) hr
    have hsum : sumLen (db :: dbs2) = db.length + sumLen dbs2 := by
      rw [sumLen, sumLen, List.map_cons, List.sum_cons]
    rw [phaseLtSum_cons, phaseGtSum_cons, hcounts.1, hcounts.2, hsum]
    omega

theorem agg_le_union (k N : ℕ) (a b : ℤ) (dbs : List (List ℤ))
    (parties : List PartyClient)
    (h : List.Forall₂ (PState k N a b) dbs parties) :
    phaseLtSum parties ≤ countLt dbs.flatten (avgFloor a b) ∧
    phaseGtSum parties ≤ countGt dbs.flatten (avgFloor a b) := by
  induction h with
  | nil => simp [phaseLtSum, phaseGtSum]
  | @cons db c dbs2 parties2 hr hrest ih =>
    have hcounts := local_comp1_counts c a b hr.2.2.2.1
    have hle := counts_le_db k N a b db c (avgFloor a b) hr
    rw [phaseLtSum_cons, phaseGtSum_cons, hcounts.1, hcounts.2,
      List.flatten_cons, countLt_append, countGt_append]
    omega

theorem agg_exact_lt (k N : ℕ) (a b : ℤ) (dbs : List (List ℤ))
    (parties : List PartyClient)
    (h : List.Forall₂ (PState k N a b) dbs parties)
    (hnoA : ∀ x ∈ dbs.flatten, ¬(x < a)) (hmb : avgFloor a b ≤ b) :
    phaseLtSum parties = countLt dbs.flatten (avgFloor a b) := by
  induction h with
  | nil => simp [phaseLtSum, countLt]
  | @cons db c dbs2 parties2 hr hrest ih =>
    have hcounts := local_comp1_counts c a b hr.2.2.2.1
    have hex := exact_countLt k N a b db c (avgFloor a b) hr
      (fun x hx => hnoA x (List.mem_flatten.2 ⟨db, List.mem_cons_self _ _, hx⟩))
      hmb
    have ih2 := ih (fun x hx => by
      rcases List.mem_flatten.1 hx with ⟨l, hl, hxl⟩
      exact hnoA x (List.mem_flatten.2 ⟨l, List.mem_cons.2 (Or.inr hl), hxl⟩))
    rw [phaseLtSum_cons, hcounts.1, List.flatten_cons, countLt_append, hex, ih2]

theorem agg_exact_gt (k N : ℕ) (a b : ℤ) (dbs : List (List ℤ))
    (parties : List PartyClient)
    (h : List.Forall₂ (PState k N a b) dbs parties)
    (hnoB : ∀ x ∈ dbs.flatten, ¬(b < x)) (ham : a ≤ avgFloor a b) :
    phaseGtSum parties = countGt dbs.flatten (avgFloor a b) := by
  induction h with
  | nil => simp [phaseGtSum, countGt]
  | @cons db c dbs2 parties2 hr hrest ih =>
    have hcounts := local_comp1_counts c a b hr.2.2.2.1
    have hex := exact_countGt k N a b db c (avgFloor a b) hr
      (fun x hx => hnoB x (List.mem_flatten.2 ⟨db, List.mem_cons_self _ _, hx⟩))
      ham
    have ih2 := ih (fun x hx => by
      rcases List.mem_flatten.1 hx with ⟨l, hl, hxl⟩
      exact hnoB x (List.mem_flatten.2 ⟨l, List.mem_cons.2 (Or.inr hl), hxl⟩))
    rw [phaseGtSum_cons, hcounts.2, List.flatten_cons, countGt_append, hex, ih2]

theorem agg_exact_mid (k N : ℕ) (a b : ℤ) (dbs : List (List ℤ))
    (parties : List PartyClient)
    (h : List.Forall₂ (PState k N a b) dbs parties)
    (hmid : ¬(k = 1 ∨ k = N)) :
    phaseLtSum parties = countLt dbs.flatten (avgFloor a b) ∧
    phaseGtSum parties = countGt dbs.flatten (avgFloor a b) := by
  induction h with
  | nil => simp [phaseLtSum, phaseGtSum, countLt, countGt]
  | @cons db c dbs2 parties2 hr hrest ih =>
    have hcounts := local_comp1_counts c a b hr.2.2.2.1
    have hcond : ¬(c.k = 1 ∨ c.k = c.databases_size) := by
      rw [pstate_slicing_cond k N a b db c hr]
      exact hmid
    have hfull : scannedRange c = c.database := by
      rw [scannedRange, if_neg hcond]
    have hperm := perm_database db c hr.1
    rw [phaseLtSum_cons, phaseGtSum_cons, hcounts.1, hcounts.2,
      List.flatten_cons, countLt_append, countGt_append, hfull,
      countLt_perm _ _ _ hperm, countGt_perm _ _ _ hperm, ih.1, ih.2]
    exact ⟨rfl, rfl⟩

theorem agg_special (k N : ℕ) (a b : ℤ) (v : ℤ) (dbs : List (List ℤ))
    (parties : List PartyClient)
    (h : List.Forall₂ (PState k N a b) dbs parties)
    (hva : a ≤ v) (hvb : v ≤ b) (hv : v ∈ dbs.flatten) :
    (v ≤ avgFloor a b → phaseGtSum parties + 1 ≤ sumLen dbs) ∧
    (avgFloor a b ≤ v → phaseLtSum parties + 1 ≤ sumLen dbs) ∧
    (v < avgFloor a b → 1 ≤ phaseLtSum parties) ∧
    (avgFloor a b < v → 1 ≤ phaseGtSum parties) := by
  induction h with
  | nil => simp at hv
  | @cons db c dbs2 parties2 hr hrest ih =>
    have hcounts := local_comp1_counts c a b hr.2.2.2.1
    have hle := counts_le_db k N a b db c (avgFloor a b) hr
    have hsum : sumLen (db :: dbs2) = db.length + sumLen dbs2 := by
      rw [sumLen, sumLen, List.map_cons, List.sum_cons]
    have hslen : (scannedRange c).length ≤ db.length := by
      have h1 := scannedRange_length c
      have h2 := (perm_database db c hr.1).length_eq
      omega
    rw [List.flatten_cons, List.mem_append] at hv
    rcases hv with hv | hv
    · have hvs := vmem_scanned k N a b db c v hr hva hvb hv
      have htail := agg_le_sumLen k N a b dbs2 parties2 hrest
      refine ⟨?_, ?_, ?_, ?_⟩ <;> intro hm <;>
        simp only [phaseLtSum_cons, phaseGtSum_cons, hsum, hcounts.1, hcounts.2]
      · have := countGt_lt_length (scannedRange c) (avgFloor a b) v hvs hm
        omega
      · have := countLt_lt_length (scannedRange c) (avgFloor a b) v hvs hm
        omega
      · have := one_le_countLt (scannedRange c) (avgFloor a b) v hvs hm
        omega
      · have := one_le_countGt (scannedRange c) (avgFloor a b) v hvs hm
        omega
    · have ih2 := ih hv
      refine ⟨?_, ?_, ?_, ?_⟩ <;> intro hm <;>
        simp only [phaseLtSum_cons, phaseGtSum_cons, hsum, hcounts.1, hcounts.2]
      · have := ih2.1 hm
        omega
      · have := ih2.2.1 hm
        omega
      · have := ih2.2.2.1 hm
        omega
      · have := ih2.2.2.2 hm
        omega

/-! ## Round-step lemmas -/

theorem update_sb_eq (c : PartyClient) :
    update_search_range c .SearchBelow =
      ({ c with
          search_range := (c.search_range.1, c.m - 1)
          search_range_idx :=
            (c.search_range_idx.1,
             c.greater_than_m_idx.getD c.search_range_idx.2) }, none) := by
  cases hg : c.greater_than_m_idx <;> simp [update_search_range, hg]

theorem update_sa_eq (c : PartyClient) :
    update_search_range c .SearchAbove =
      ({ c with
          search_range := (c.m + 1, c.search_range.2)
          search_range_idx :=
            (c.greater_than_m_idx.getD c.search_range_idx.1,
             c.search_range_idx.2) }, none) := by
  cases hg : c.greater_than_m_idx <;> simp [update_search_range, hg]

theorem update_snd_none (c : PartyClient) (u : UpdateSearchRange)
    (hu : u ≠ .FoundK) : (update_search_range c u).2 = none := by
  cases u
  · exact absurd rfl hu
  · rw [update_sb_eq]
  · rw [update_sa_eq]
  · rfl

theorem applyUpdates_foundK (c : PartyClient) (cs : List PartyClient) :
    applyUpdates .FoundK (c :: cs) = (c :: cs, some c.m) := rfl

theorem applyUpdates_of_none (u : UpdateSearchRange) (hu : u ≠ .FoundK) :
    ∀ ps : List PartyClient,
      applyUpdates u ps = (ps.map (fun c => (update_search_range c u).1), none)
  | [] => rfl
  | c :: cs => by
    have h2 := update_snd_none c u hu
    rw [applyUpdates, h2, applyUpdates_of_none u hu cs, List.map_cons]

theorem protocolRound_eq (s : PartyServer) (parties : List PartyClient) :
    protocolRound s parties =
      applyUpdates (calculate_update s (phaseLtSum parties) (phaseGtSum parties))
        (parties.map (fun c => (local_comp1 c).1)) := by
  simp only [protocolRound, PartyServer.add_ciphertexts, List.map_map,
    phaseLtSum, phaseGtSum, ← List.sum_eq_foldl]
  rfl

theorem scannedRange_local_comp1 (c : PartyClient) :
    scannedRange (local_comp1 c).1 = scannedRange c := by
  rw [local_comp1_eq]
  rw [scannedRange, scannedRange]

theorem sb_state_eq (c : PartyClient) :
    (update_search_range (local_comp1 c).1 .SearchBelow).1 =
      { c with
          m := avgFloor c.search_range.1 c.search_range.2
          greater_than_m_idx :=
            (firstIdxGt (avgFloor c.search_range.1 c.search_range.2)
              (scannedRange c)).map (· + c.search_range_idx.1)
          search_range :=
            (c.search_range.1, avgFloor c.search_range.1 c.search_range.2 - 1)
          search_range_idx :=
            (c.search_range_idx.1,
             ((firstIdxGt (avgFloor c.search_range.1 c.search_range.2)
                 (scannedRange c)).map
               (· + c.search_range_idx.1)).getD c.search_range_idx.2) } := by
  rw [local_comp1_eq, update_sb_eq]

theorem sa_state_eq (c : PartyClient) :
    (update_search_range (local_comp1 c).1 .SearchAbove).1 =
      { c with
          m := avgFloor c.search_range.1 c.search_range.2
          greater_than_m_idx :=
            (firstIdxGt (avgFloor c.search_range.1 c.search_range.2)
              (scannedRange c)).map (· + c.search_range_idx.1)
          search_range :=
            (avgFloor c.search_range.1 c.search_range.2 + 1, c.search_range.2)
          search_range_idx :=
            (((firstIdxGt (avgFloor c.search_range.1 c.search_range.2)
                 (scannedRange c)).map
               (· + c.search_range_idx.1)).getD c.search_range_idx.1,
             c.search_range_idx.2) } := by
  rw [local_comp1_eq, update_sa_eq]

theorem scanned_cond_facts (k N : ℕ) (a b : ℤ) (db : List ℤ) (c : PartyClient)
    (hps : PState k N a b db c) (hsl : k = 1 ∨ k = N) :
    scannedRange c =
      (c.database.drop c.search_range_idx.1).take
        (c.search_range_idx.2 - c.search_range_idx.1) ∧
    (scannedRange c).length ≤ c.search_range_idx.2 - c.search_range_idx.1 ∧
    (c.database.drop c.search_range_idx.1).drop
      (c.search_range_idx.2 - c.search_range_idx.1) =
      c.database.drop c.search_range_idx.2 ∧
    (scannedRange c).Sorted (· ≤ ·) := by
  have hcond := (pstate_slicing_cond k N a b db c hps).2 hsl
  have hb := hps.2.2.2.2 hsl
  have h1 : scannedRange c =
      (c.database.drop c.search_range_idx.1).take
        (c.search_range_idx.2 - c.search_range_idx.1) := by
    rw [scannedRange, if_pos hcond]
  refine ⟨h1, ?_, ?_, ?_⟩
  · rw [h1, List.length_take]
    omega
  · rw [List.drop_drop]
    congr 1
    omega
  · exact ((sorted_database db c hps.1).sublist (scannedRange_sublist c))

theorem pstate_searchBelow (k N : ℕ) (a b : ℤ) (db : List ℤ) (c : PartyClient)
    (hps : PState k N a b db c) (hab : a ≤ b) :
    PState k N a (avgFloor a b - 1) db
      (update_search_range (local_comp1 c).1 .SearchBelow).1 := by
  have havg := avgFloor_bounds a b hab
  have hsr : c.search_range = (a, b) := hps.2.2.2.1
  rw [sb_state_eq, hsr]
  dsimp only [PState]
  refine ⟨hps.1, hps.2.1, hps.2.2.1, rfl, ?_⟩
  intro hsl
  have hb := hps.2.2.2.2 hsl
  obtain ⟨hscan, hslen, hdropeq, hsorted⟩ := scanned_cond_facts k N a b db c hps hsl
  cases hfi : firstIdxGt (avgFloor a b) (scannedRange c) with
  | none =>
    rw [show (Option.map (fun x => x + c.search_range_idx.1)
        (none : Option ℕ)).getD c.search_range_idx.2 = c.search_range_idx.2
      from rfl]
    refine ⟨hb.1, hb.2.1, hb.2.2.1, ?_⟩
    intro x hx
    have := hb.2.2.2 x hx
    omega
  | some g =>
    rw [show (Option.map (fun x => x + c.search_range_idx.1)
        (some g)).getD c.search_range_idx.2 = g + c.search_range_idx.1
      from rfl]
    have hg := firstIdxGt_some_lt _ _ _ hfi
    have hbnds := hb.1
    have hlen := hb.2.1
    constructor
    · omega
    constructor
    · omega
    constructor
    · exact hb.2.2.1
    · intro x hx
      have hsplit : List.drop c.search_range_idx.1 c.database =
          scannedRange c ++ List.drop c.search_range_idx.2 c.database := by
        conv_lhs => rw [← List.take_append_drop
          (c.search_range_idx.2 - c.search_range_idx.1)
          (List.drop c.search_range_idx.1 c.database)]
        rw [hdropeq, ← hscan]
      have hx2 : x ∈ (scannedRange c).drop g ++
          c.database.drop c.search_range_idx.2 := by
        rw [show g + c.search_range_idx.1 = c.search_range_idx.1 + g
          from by omega, ← List.drop_drop, hsplit,
          List.drop_append_of_le_length (by omega)] at hx
        exact hx
      rcases List.mem_append.1 hx2 with hx2 | hx2
      · have := firstIdxGt_drop _ _ _ hsorted hfi x hx2
        omega
      · have := hb.2.2.2 x hx2
        omega

theorem pstate_searchAbove (k N : ℕ) (a b : ℤ) (db : List ℤ) (c : PartyClient)
    (hps : PState k N a b db c) (hab : a ≤ b) :
    PState k N (avgFloor a b + 1) b db
      (update_search_range (local_comp1 c).1 .SearchAbove).1 := by
  have havg := avgFloor_bounds a b hab
  have hsr : c.search_range = (a, b) := hps.2.2.2.1
  rw [sa_state_eq, hsr]
  dsimp only [PState]
  refine ⟨hps.1, hps.2.1, hps.2.2.1, rfl, ?_⟩
  intro hsl
  have hb := hps.2.2.2.2 hsl
  obtain ⟨hscan, hslen, hdropeq, hsorted⟩ := scanned_cond_facts k N a b db c hps hsl
  cases hfi : firstIdxGt (avgFloor a b) (scannedRange c) with
  | none =>
    rw [show (Option.map (fun x => x + c.search_range_idx.1)
        (none : Option ℕ)).getD c.search_range_idx.1 = c.search_range_idx.1
      from rfl]
    refine ⟨hb.1, hb.2.1, ?_, hb.2.2.2⟩
    intro x hx
    have := hb.2.2.1 x hx
    omega
  | some g =>
    rw [show (Option.map (fun x => x + c.search_range_idx.1)
        (some g)).getD c.search_range_idx.1 = g + c.search_range_idx.1
      from rfl]
    have hg := firstIdxGt_some_lt _ _ _ hfi
    have hbnds := hb.1
    have hlen := hb.2.1
    constructor
    · omega
    constructor
    · omega
    constructor
    · intro x hx
      have h5 : (scannedRange c).take g =
          (c.database.drop c.search_range_idx.1).take g := by
        rw [hscan, List.take_take]
        congr 1
        omega
      have hx2 : x ∈ c.database.take c.search_range_idx.1 ++
          (scannedRange c).take g := by
        rw [show g + c.search_range_idx.1 = c.search_range_idx.1 + g
          from by omega, List.take_add] at hx
        rw [h5]
        exact hx
      rcases List.mem_append.1 hx2 with hx2 | hx2
      · have := hb.2.2.1 x hx2
        omega
      · have := firstIdxGt_take _ _ _ hfi x hx2
        omega
    · exact hb.2.2.2

/-! ## The round lemma -/

theorem sumLen_pos_ne_nil (dbs : List (List ℤ)) (h : 1 ≤ sumLen dbs) :
    dbs ≠ [] := by
  intro hnil
  subst hnil
  simp [sumLen] at h

theorem round_step (dbs : List (List ℤ)) (k : ℕ) (a b : ℤ) (srv : PartyServer)
    (parties : List PartyClient)
    (hk1 : 1 ≤ k) (hkN : k ≤ sumLen dbs)
    (hsrvk : srv.k = k) (hsrvN : srv.databases_size = sumLen dbs)
    (hinv : Inv dbs k a b parties) :
    (∃ ps2, protocolRound srv parties = (ps2, some (get_kth_element dbs k))) ∨
    (∃ ps2 a2 b2, protocolRound srv parties = (ps2, none) ∧
      Inv dbs k a2 b2 ps2 ∧
      2 * (b2 - a2 + 1).toNat ≤ (b - a + 1).toNat) := by
  obtain ⟨hf2, hav, hvb, hk1a, hkNb⟩ := hinv
  have hab : a ≤ b := le_trans hav hvb
  have havg := avgFloor_bounds a b hab
  obtain ⟨hvmem, hvlt, hvle⟩ := kth_spec dbs k hk1 hkN
  have hlenU : dbs.flatten.length = sumLen dbs := by
    rw [List.length_flatten, sumLen]
  have hleN := agg_le_sumLen k (sumLen dbs) a b dbs parties hf2
  have hleU := agg_le_union k (sumLen dbs) a b dbs parties hf2
  have hspec := agg_special k (sumLen dbs) a b (get_kth_element dbs k)
    dbs parties hf2 hav hvb hvmem
  rw [protocolRound_eq]
  by_cases hSB : k ≤ phaseLtSum parties
  · -- SearchBelow round
    have hu : calculate_update srv (phaseLtSum parties) (phaseGtSum parties) =
        .SearchBelow := by
      rw [calculate_update, hsrvk, hsrvN, if_neg (by omega), if_pos (by omega)]
    have hvm : get_kth_element dbs k < avgFloor a b :=
      kth_lt_of_countLt dbs k (avgFloor a b) hk1 hkN (by omega)
    right
    rw [hu, applyUpdates_of_none .SearchBelow (by intro h; cases h)]
    refine ⟨_, a, avgFloor a b - 1, rfl, ⟨?_, hav, by omega, ?_, ?_⟩, by omega⟩
    · rw [List.map_map]
      refine List.forall₂_map_right_iff.2 (hf2.imp ?_)
      intro db c hps
      exact pstate_searchBelow k (sumLen dbs) a b db c hps hab
    · exact fun h1 => hk1a h1
    · intro hkn
      exfalso
      have hmv : avgFloor a b ≤ get_kth_element dbs k := by
        have := hkNb hkn
        omega
      have := hspec.2.1 hmv
      omega
  · by_cases hSA : sumLen dbs - k < phaseGtSum parties
    · -- SearchAbove round
      have hu : calculate_update srv (phaseLtSum parties) (phaseGtSum parties) =
          .SearchAbove := by
        rw [calculate_update, hsrvk, hsrvN, if_neg (by omega),
          if_neg (by omega), if_pos (by omega)]
      have hvm : avgFloor a b < get_kth_element dbs k :=
        kth_gt_of_countGt dbs k (avgFloor a b) hk1 hkN (by omega)
      right
      rw [hu, applyUpdates_of_none .SearchAbove (by intro h; cases h)]
      refine ⟨_, avgFloor a b + 1, b, rfl, ⟨?_, by omega, hvb, ?_, ?_⟩, by omega⟩
      · rw [List.map_map]
        refine List.forall₂_map_right_iff.2 (hf2.imp ?_)
        intro db c hps
        exact pstate_searchAbove k (sumLen dbs) a b db c hps hab
      · intro hk1'
        exfalso
        have hva : get_kth_element dbs k ≤ avgFloor a b := by
          have := hk1a hk1'
          omega
        have := hspec.2.2.2 hvm
        have := hspec.1 hva
        omega
      · exact fun h1 => hkNb h1
    · -- FoundK round
      have hu : calculate_update srv (phaseLtSum parties) (phaseGtSum parties) =
          .FoundK := by
        rw [calculate_update, hsrvk, hsrvN, if_neg (by omega),
          if_neg (by omega), if_neg (by omega)]
      have hmv : avgFloor a b = get_kth_element dbs k := by
        by_cases hk1' : k = 1
        · have hva : a = get_kth_element dbs k := hk1a hk1'
          have hvle2 : get_kth_element dbs k ≤ avgFloor a b := by omega
          by_contra hne
          have hlt : get_kth_element dbs k < avgFloor a b := by omega
          have := hspec.2.2.1 hlt
          omega
        · by_cases hkN' : k = sumLen dbs
          · have hvb2 : b = get_kth_element dbs k := hkNb hkN'
            have hvge : avgFloor a b ≤ get_kth_element dbs k := by omega
            by_contra hne
            have hlt : avgFloor a b < get_kth_element dbs k := by omega
            have := hspec.2.2.2 hlt
            omega
          · have hmid := agg_exact_mid k (sumLen dbs) a b dbs parties hf2
              (by tauto)
            exact kth_eq_of_counts dbs k (avgFloor a b) hk1 hkN
              (by omega) (by omega)
      left
      rw [hu]
      cases dbs with
      | nil =>
        exfalso
        exact (sumLen_pos_ne_nil [] (by omega)) rfl
      | cons d ds =>
        cases hf2 with
        | @cons _ c _ cs hr hrest =>
          rw [List.map_cons, applyUpdates_foundK]
          refine ⟨(local_comp1 c).1 :: cs.map (fun x => (local_comp1 x).1), ?_⟩
          have hm : ((local_comp1 c).1).m = avgFloor a b := by
            rw [local_comp1_eq, hr.2.2.2.1]
          rw [hm, hmv]

/-! ## The fuelled run -/

theorem leaky_succ (srv : PartyServer) (fuel : ℕ) (parties : List PartyClient) :
    leaky_kth_ranked_element srv (fuel + 1) parties =
      match (protocolRound srv parties).2 with
      | some v => some v
      | none => leaky_kth_ranked_element srv fuel (protocolRound srv parties).1 :=
  rfl

theorem run_correct (dbs : List (List ℤ)) (k : ℕ) (srv : PartyServer)
    (hk1 : 1 ≤ k) (hkN : k ≤ sumLen dbs)
    (hsrvk : srv.k = k) (hsrvN : srv.databases_size = sumLen dbs) :
    ∀ (t fuel : ℕ) (a b : ℤ) (parties : List PartyClient),
      Inv dbs k a b parties → (b - a + 1).toNat ≤ 2 ^ t → t + 1 ≤ fuel →
      leaky_kth_ranked_element srv fuel parties =
        some (get_kth_element dbs k) := by
  intro t
  induction t with
  | zero =>
    intro fuel a b parties hinv hsize hfuel
    cases fuel with
    | zero => omega
    | succ f =>
      rcases round_step dbs k a b srv parties hk1 hkN hsrvk hsrvN hinv with
        ⟨ps2, hr⟩ | ⟨ps2, a2, b2, hr, hinv2, hsz⟩
      · rw [leaky_succ, hr]
      · exfalso
        have hab2 : a2 ≤ b2 := le_trans hinv2.2.1 hinv2.2.2.1
        have hpow : (2 : ℕ) ^ 0 = 1 := rfl
        omega
  | succ t ih =>
    intro fuel a b parties hinv hsize hfuel
    cases fuel with
    | zero => omega
    | succ f =>
      rcases round_step dbs k a b srv parties hk1 hkN hsrvk hsrvN hinv with
        ⟨ps2, hr⟩ | ⟨ps2, a2, b2, hr, hinv2, hsz⟩
      · rw [leaky_succ, hr]
      · rw [leaky_succ, hr]
        have hpow : (2 : ℕ) ^ (t + 1) = 2 * 2 ^ t := by
          rw [pow_succ]
          ring
        exact ih f a2 b2 ps2 hinv2 (by omega) (by omega)

/-! ## The initial invariant from construction -/

theorem int_min?_spec (l : List ℤ) (mn : ℤ) (h : l.min? = some mn) :
    mn ∈ l ∧ ∀ x ∈ l, mn ≤ x :=
  (List.min?_eq_some_iff (fun x : ℤ => le_refl x) (fun x y => min_choice x y)
    (fun _ _ _ => le_min_iff)).1 h

theorem int_max?_spec (l : List ℤ) (mx : ℤ) (h : l.max? = some mx) :
    mx ∈ l ∧ ∀ x ∈ l, x ≤ mx :=
  (List.max?_eq_some_iff (fun x : ℤ => le_refl x) (fun x y => max_choice x y)
    (fun _ _ _ => max_le_iff)).1 h

theorem unionMin_spec (dbs : List (List ℤ)) (mn : ℤ)
    (h : (partyMins dbs).bind List.min? = some mn) :
    mn ∈ dbs.flatten ∧ ∀ x ∈ dbs.flatten, mn ≤ x := by
  obtain ⟨ms, hms, hmin⟩ := Option.bind_eq_some.1 h
  have hf2 := partyMins_forall2 dbs ms hms
  have hspec := int_min?_spec ms mn hmin
  obtain ⟨db, hdb, hdbmin⟩ := forall2_mem_right _ _ _ mn hf2 hspec.1
  have hdbspec := int_min?_spec db mn hdbmin
  constructor
  · exact List.mem_flatten.2 ⟨db, hdb, hdbspec.1⟩
  · intro x hx
    rcases List.mem_flatten.1 hx with ⟨db2, hdb2, hxdb2⟩
    obtain ⟨mn2, hmn2, hdb2min⟩ := forall2_mem_left _ _ _ db2 hf2 hdb2
    have h1 : mn ≤ mn2 := hspec.2 mn2 hmn2
    have h2 := (int_min?_spec db2 mn2 hdb2min).2 x hxdb2
    omega

theorem unionMax_spec (dbs : List (List ℤ)) (mx : ℤ)
    (h : (partyMaxs dbs).bind List.max? = some mx) :
    mx ∈ dbs.flatten ∧ ∀ x ∈ dbs.flatten, x ≤ mx := by
  obtain ⟨ms, hms, hmax⟩ := Option.bind_eq_some.1 h
  have hf2 := partyMaxs_forall2 dbs ms hms
  have hspec := int_max?_spec ms mx hmax
  obtain ⟨db, hdb, hdbmax⟩ := forall2_mem_right _ _ _ mx hf2 hspec.1
  have hdbspec := int_max?_spec db mx hdbmax
  constructor
  · exact List.mem_flatten.2 ⟨db, hdb, hdbspec.1⟩
  · intro x hx
    rcases List.mem_flatten.1 hx with ⟨db2, hdb2, hxdb2⟩
    obtain ⟨mx2, hmx2, hdb2max⟩ := forall2_mem_left _ _ _ db2 hf2 hdb2
    have h1 : mx2 ≤ mx := hspec.2 mx2 hmx2
    have h2 := (int_max?_spec db2 mx2 hdb2max).2 x hxdb2
    omega

theorem buildClients_pstate (n2 k N : ℕ) (a0 b0 : ℤ) :
    ∀ (i : ℕ) (dbs2 : List (List ℤ)),
      List.Forall₂ (PState k N a0 b0) dbs2 (buildClients n2 k N (a0, b0) i dbs2) := by
  intro i dbs2
  induction dbs2 generalizing i with
  | nil => exact List.Forall₂.nil
  | cons d ds ih =>
    rw [buildClients]
    have hc : PartyClient.new d i n2 k N (a0, b0) 0 i =
        { database := List.insertionSort (· ≤ ·) d
          idx := i
          n := n2
          k := k
          databases_size := N
          search_range := (a0, b0)
          search_range_idx := (0, (List.insertionSort (· ≤ ·) d).length)
          greater_than_m_idx := none
          m := avgFloor a0 b0
          pk := 0
          key_share := i } := rfl
    refine List.Forall₂.cons ?_ (ih (i + 1))
    rw [hc]
    dsimp only [PState]
    refine ⟨rfl, rfl, rfl, rfl, ?_⟩
    intro hsl
    refine ⟨Nat.zero_le _, le_refl _, ?_, ?_⟩
    · intro x hx
      simp at hx
    · intro x hx
      rw [List.drop_length] at hx
      simp at hx

theorem create_some_elim (k : ℕ) (dbs : List (List ℤ)) (srv : PartyServer)
    (cls : List PartyClient)
    (h : create_server_clients k dbs = some (srv, cls)) :
    ∃ mn mx, (partyMins dbs).bind List.min? = some mn ∧
      (partyMaxs dbs).bind List.max? = some mx ∧
      srv = { n := dbs.length, pk := 0, k := k, databases_size := sumLen dbs } ∧
      cls = buildClients dbs.length k (sumLen dbs) (mn, mx) 0 dbs := by
  rw [create_server_clients] at h
  cases h1 : (partyMins dbs).bind List.min? <;> rw [h1] at h
  · simp at h
  · cases h2 : (partyMaxs dbs).bind List.max? <;> rw [h2] at h
    · simp at h
    · simp only [Option.some.injEq, Prod.mk.injEq] at h
      exact ⟨_, _, rfl, rfl, h.1.symm, h.2.symm⟩

theorem initial_inv (k : ℕ) (dbs : List (List ℤ)) (srv : PartyServer)
    (cls : List PartyClient) (hk1 : 1 ≤ k) (hkN : k ≤ sumLen dbs)
    (h : create_server_clients k dbs = some (srv, cls)) :
    ∃ mn mx, Inv dbs k mn mx cls ∧
      (partyMins dbs).bind List.min? = some mn ∧
      (partyMaxs dbs).bind List.max? = some mx ∧
      srv.k = k ∧ srv.databases_size = sumLen dbs := by
  obtain ⟨mn, mx, hmn, hmx, hsrv, hcls⟩ := create_some_elim k dbs srv cls h
  obtain ⟨hv, hvlt, hvle⟩ := kth_spec dbs k hk1 hkN
  have hminspec := unionMin_spec dbs mn hmn
  have hmaxspec := unionMax_spec dbs mx hmx
  refine ⟨mn, mx, ⟨?_, ?_, ?_, ?_, ?_⟩, hmn, hmx, by rw [hsrv], by rw [hsrv]⟩
  · rw [hcls]
    exact buildClients_pstate dbs.length k (sumLen dbs) mn mx 0 dbs
  · exact hminspec.2 _ hv
  · exact hmaxspec.2 _ hv
  · intro hk1'
    subst hk1'
    have := kth_min_no_below dbs (by omega) mn hminspec.1
    have := hminspec.2 _ hv
    omega
  · intro hkN'
    have := kth_max_no_above dbs (by omega) mx hmaxspec.1
    rw [← hkN'] at this
    have := hmaxspec.2 _ hv
    omega

/-- Main run theorem: a successfully constructed non-DP instance with a
valid rank returns the k-th element given fuel ⌈log2(b0 - a0 + 1)⌉ + 1 or
more, where [a0, b0] is the initial range (the union's min and max). -/
theorem run_main (dbs : List (List ℤ)) (k : ℕ) (srv : PartyServer)
    (cls : List PartyClient) (fuel : ℕ)
    (hk1 : 1 ≤ k) (hkN : k ≤ sumLen dbs)
    (hc : create_server_clients k dbs = some (srv, cls))
    (hfuel : Nat.clog 2 ((((partyMaxs dbs).bind List.max?).getD 0 -
      ((partyMins dbs).bind List.min?).getD 0 + 1)).toNat + 1 ≤ fuel) :
    leaky_kth_ranked_element srv fuel cls = some (get_kth_element dbs k) := by
  obtain ⟨mn, mx, hinv, hmn, hmx, hsrvk, hsrvN⟩ :=
    initial_inv k dbs srv cls hk1 hkN hc
  rw [hmn, hmx] at hfuel
  simp only [Option.getD_some] at hfuel
  have hsize : ((mx - mn + 1)).toNat ≤
      2 ^ Nat.clog 2 ((mx - mn + 1)).toNat :=
    Nat.le_pow_clog (by norm_num) _
  exact run_correct dbs k srv hk1 hkN hsrvk hsrvN
    (Nat.clog 2 ((mx - mn + 1)).toNat) fuel mn mx cls hinv hsize hfuel

/-! ## Claims C1 and C5 -/

/-- C1: for every constructible collection of databases (non-empty, all
databases non-empty — exactly when create_server_clients succeeds) and
every rank 1 ≤ k ≤ N, the in-process driver leaky_kth_ranked_element with
non-DP party clients built over the initial range [min, max] of the union
returns Some of the element at 1-indexed position k of the ascending sort
of the union, i.e. get_kth_element of the same databases and k; the fuel
hypothesis says only that the loop is run long enough (the source loop is
unbounded). -/
theorem claim_C1_protocol_correct (dbs : List (List ℤ)) (k : ℕ)
    (srv : PartyServer) (cls : List PartyClient) (fuel : ℕ)
    (hk1 : 1 ≤ k) (hkN : k ≤ sumLen dbs)
    (hc : create_server_clients k dbs = some (srv, cls))
    (hfuel : Nat.clog 2 ((((partyMaxs dbs).bind List.max?).getD 0 -
      ((partyMins dbs).bind List.min?).getD 0 + 1)).toNat + 1 ≤ fuel) :
    leaky_kth_ranked_element srv fuel cls = some (get_kth_element dbs k) :=
  run_main dbs k srv cls fuel hk1 hkN hc hfuel

/-- Witness for C1: two parties [1,3] and [2], k = 2; the union sorts to
[1,2,3] and the run returns its second element 2. -/
theorem claim_C1_witness :
    leaky_kth_ranked_element { n := 2, pk := 0, k := 2, databases_size := 3 } 3
      [PartyClient.new [1, 3] 0 2 2 3 (1, 3) 0 0,
       PartyClient.new [2] 1 2 2 3 (1, 3) 0 1] = some 2 := by
  have hb : Nat.clog 2 (((((partyMaxs [[1, 3], [2]]).bind List.max?).getD 0 -
      ((partyMins [[1, 3], [2]]).bind List.min?).getD 0 + 1)).toNat) + 1 ≤ 3 := by
    rw [show ((((partyMaxs [[1, 3], [2]]).bind List.max?).getD 0 -
      ((partyMins [[1, 3], [2]]).bind List.min?).getD 0 + 1)).toNat = 3 from rfl]
    rw [Nat.clog]
    norm_num
    rw [Nat.clog]
    norm_num
  have h := claim_C1_protocol_correct [[1, 3], [2]] 2
    { n := 2, pk := 0, k := 2, databases_size := 3 }
    [PartyClient.new [1, 3] 0 2 2 3 (1, 3) 0 0,
     PartyClient.new [2] 1 2 2 3 (1, 3) 0 1] 3
    (by decide) (by decide) (by decide) hb
  rw [show get_kth_element [[1, 3], [2]] 2 = 2 from by decide] at h
  exact h

/-- C5 counterexample: databases [[5,6]], k = 2, initial range [5, 6], so
b0 - a0 + 1 = 2 and the claimed bound is ⌈log2 2⌉ = 1 round; but after
round one (SearchAbove) the run has produced no result — it needs a second
round, which returns 6.  The claimed bound is one round short. -/
theorem claim_C5_counterexample :
    create_server_clients 2 [[5, 6]] =
      some ({ n := 1, pk := 0, k := 2, databases_size := 2 },
        [PartyClient.new [5, 6] 0 1 2 2 (5, 6) 0 0]) ∧
    Nat.clog 2 (((6 : ℤ) - 5 + 1).toNat) = 1 ∧
    leaky_kth_ranked_element { n := 1, pk := 0, k := 2, databases_size := 2 } 1
      [PartyClient.new [5, 6] 0 1 2 2 (5, 6) 0 0] = none ∧
    leaky_kth_ranked_element { n := 1, pk := 0, k := 2, databases_size := 2 } 2
      [PartyClient.new [5, 6] 0 1 2 2 (5, 6) 0 0] = some 6 ∧
    get_kth_element [[5, 6]] 2 = 6 := by
  refine ⟨by decide, ?_, by decide, by decide, by decide⟩
  rw [show (((6 : ℤ) - 5 + 1).toNat) = 2 from rfl]
  rw [Nat.clog]
  norm_num

/-- C5 (amended): every properly constructed non-DP run terminates, within
⌈log2(b0 − a0 + 1)⌉ + 1 rounds where [a0, b0] is the initial range (one
more round than the claim states: the final FoundK round is not covered by
the halvings; b − a does strictly decrease in every SearchBelow/SearchAbove
round). -/
theorem claim_C5_termination (dbs : List (List ℤ)) (k : ℕ)
    (srv : PartyServer) (cls : List PartyClient)
    (hk1 : 1 ≤ k) (hkN : k ≤ sumLen dbs)
    (hc : create_server_clients k dbs = some (srv, cls)) :
    ∃ r, leaky_kth_ranked_element srv
      (Nat.clog 2 ((((partyMaxs dbs).bind List.max?).getD 0 -
        ((partyMins dbs).bind List.min?).getD 0 + 1)).toNat + 1) cls =
      some r :=
  ⟨get_kth_element dbs k,
   run_main dbs k srv cls _ hk1 hkN hc (le_refl _)⟩

/-- Witness for C5 at the single-database instance [[4, 7]], k = 1. -/
theorem claim_C5_witness :
    ∃ r, leaky_kth_ranked_element { n := 1, pk := 0, k := 1, databases_size := 2 }
      (Nat.clog 2 ((((partyMaxs [[4, 7]]).bind List.max?).getD 0 -
        ((partyMins [[4, 7]]).bind List.min?).getD 0 + 1)).toNat + 1)
      [PartyClient.new [4, 7] 0 1 1 2 (4, 7) 0 0] = some r :=
  claim_C5_termination [[4, 7]] 1
    { n := 1, pk := 0, k := 1, databases_size := 2 }
    [PartyClient.new [4, 7] 0 1 1 2 (4, 7) 0 0]
    (by decide) (by decide) (by decide)

/-! ## Zero-noise facts (claim C8) -/

theorem get_scale_fixed_none (r d : ℕ) : get_scale_fixed .NONE r d = 0 := rfl

theorem get_scale_sigmoid_none (r d : ℕ) : get_scale_sigmoid .NONE r d = 0 := by
  rw [get_scale_sigmoid]
  norm_num

theorem laplace_point_zero (p : ℝ) : laplace_point 0 p = 0 := by
  rw [laplace_point]
  ring

theorem rustRound_zero : rustRound 0 = 0 := by
  rw [rustRound, if_neg (by norm_num)]
  norm_num

theorem addNoiseInt_zero (r : ℕ) : addNoiseInt r 0 = r := by
  simp [addNoiseInt]

/-- A DP client running at zero noise: level NONE and a scale function
returning 0 at NONE. -/
def DPok (dp : DPClient) : Prop :=
  dp.noise_level = .NONE ∧ ∀ x y, dp.get_scale_fn .NONE x y = 0

theorem add_noise_none (dp : DPClient) (r : ℕ) (p : ℝ) (hok : DPok dp) :
    (dp.add_noise r p).2 = r ∧
    (dp.add_noise r p).1.client = dp.client ∧ DPok (dp.add_noise r p).1 := by
  rw [DPClient.add_noise]
  have hscale : dp.get_scale_fn dp.noise_level r
      (if dp.client.k = 1 ∨ dp.client.k = dp.client.databases_size
       then max (dp.client.search_range_idx.2 - dp.client.search_range_idx.1) 1
       else dp.client.database.length) = 0 := by
    rw [hok.1, hok.2]
  rw [hscale, laplace_point_zero, rustRound_zero, addNoiseInt_zero]
  exact ⟨rfl, rfl, hok.1, hok.2⟩

theorem raw_counts_le (c : PartyClient) (m : ℤ) :
    countLt (scannedRange c) m + countGt (scannedRange c) m ≤
      c.database.length := by
  have h1 : countLt (scannedRange c) m ≤ countLe (scannedRange c) m :=
    List.countP_mono_left (fun x _ hx => by simp at hx ⊢; omega)
  have h2 := countLe_add_countGt (scannedRange c) m
  have h3 := scannedRange_length c
  omega

theorem dpClamp_noop (len l g : ℕ) (h : l + g ≤ len) : dpClamp len l g = (l, g) := by
  rw [dpClamp, if_neg (by omega)]

theorem dp_local_none (dp : DPClient) (p1 p2 : ℝ) (hok : DPok dp) :
    (dp.local_computation p1 p2).1.client = (local_comp1 dp.client).1 ∧
    (dp.local_computation p1 p2).2.1 = (local_comp1 dp.client).2.1 ∧
    (dp.local_computation p1 p2).2.2 = (local_comp1 dp.client).2.2 ∧
    DPok (dp.local_computation p1 p2).1 := by
  rw [DPClient.local_computation]
  have hok1 : DPok { dp with client := (local_comp1 dp.client).1 } :=
    ⟨hok.1, hok.2⟩
  have h1 := add_noise_none { dp with client := (local_comp1 dp.client).1 }
    (local_comp1 dp.client).2.1 p1 hok1
  have h2 := add_noise_none ({ dp with client := (local_comp1 dp.client).1
    }.add_noise (local_comp1 dp.client).2.1 p1).1
    (local_comp1 dp.client).2.2 p2 h1.2.2
  have hdb : (({ dp with client := (local_comp1 dp.client).1
      }.add_noise (local_comp1 dp.client).2.1 p1).1.add_noise
      (local_comp1 dp.client).2.2 p2).1.client.database.length =
      dp.client.database.length := by
    rw [h2.2.1, h1.2.1]
    rw [local_comp1_eq]
  have hraw : (local_comp1 dp.client).2.1 + (local_comp1 dp.client).2.2 ≤
      dp.client.database.length := by
    rw [local_comp1_eq]
    exact raw_counts_le dp.client (avgFloor dp.client.search_range.1
      dp.client.search_range.2)
  rw [h1.1, h2.1, hdb, dpClamp_noop _ _ _ hraw]
  exact ⟨by rw [h2.2.1, h1.2.1], rfl, rfl, h2.2.2⟩

theorem dpPhaseA_spec (draw : ℕ → ℝ × ℝ) : ∀ (i : ℕ) (dps : List DPClient),
    (∀ dp ∈ dps, DPok dp) →
    ((dpPhaseA draw i dps).map (fun r => r.1.client) =
      (dps.map (fun dp => dp.client)).map (fun c => (local_comp1 c).1)) ∧
    ((dpPhaseA draw i dps).map (fun r => r.2.1) =
      (dps.map (fun dp => dp.client)).map (fun c => (local_comp1 c).2.1)) ∧
    ((dpPhaseA draw i dps).map (fun r => r.2.2) =
      (dps.map (fun dp => dp.client)).map (fun c => (local_comp1 c).2.2)) ∧
    (∀ r ∈ dpPhaseA draw i dps, DPok r.1) := by
  intro i dps
  induction dps generalizing i with
  | nil => intro hok; exact ⟨rfl, rfl, rfl, by simp [dpPhaseA]⟩
  | cons dp dps ih =>
    intro hok
    have hokdp : DPok dp := hok dp (List.mem_cons_self _ _)
    have hoktl : ∀ d ∈ dps, DPok d :=
      fun d hd => hok d (List.mem_cons.2 (Or.inr hd))
    have hl := dp_local_none dp (draw i).1 (draw i).2 hokdp
    obtain ⟨ih1, ih2, ih3, ih4⟩ := ih (i + 1) hoktl
    rw [dpPhaseA]
    refine ⟨?_, ?_, ?_, ?_⟩
    · rw [List.map_cons, List.map_cons, List.map_cons, hl.1, ih1]
    · rw [List.map_cons, List.map_cons, List.map_cons, hl.2.1, ih2]
    · rw [List.map_cons, List.map_cons, List.map_cons, hl.2.2.1, ih3]
    · intro r hr
      rcases List.mem_cons.1 hr with hr | hr
      · rw [hr]; exact hl.2.2.2
      · exact ih4 r hr

theorem dpApplyUpdates_spec (u : UpdateSearchRange) :
    ∀ dps : List DPClient,
      ((dpApplyUpdates u dps).1.map (fun dp => dp.client) =
        (applyUpdates u (dps.map (fun dp => dp.client))).1) ∧
      ((dpApplyUpdates u dps).2 =
        (applyUpdates u (dps.map (fun dp => dp.client))).2) ∧
      ((∀ dp ∈ dps, DPok dp) → ∀ d2 ∈ (dpApplyUpdates u dps).1, DPok d2)
  | [] => by
    refine ⟨rfl, rfl, ?_⟩
    intro _ d2 hd2
    simp [dpApplyUpdates] at hd2
  | dp :: dps => by
    obtain ⟨ih1, ih2, ih3⟩ := dpApplyUpdates_spec u dps
    rw [dpApplyUpdates, List.map_cons, applyUpdates, DPClient.update_search_range]
    cases hu2 : (update_search_range dp.client u).2 with
    | some v =>
      refine ⟨?_, ?_, ?_⟩
      · rw [List.map_cons]
      · rfl
      · intro hok d2 hd2
        rcases List.mem_cons.1 hd2 with hd2 | hd2
        · rw [hd2]
          exact ⟨(hok dp (List.mem_cons_self _ _)).1,
            (hok dp (List.mem_cons_self _ _)).2⟩
        · exact hok d2 (List.mem_cons.2 (Or.inr hd2))
    | none =>
      refine ⟨?_, ?_, ?_⟩
      · rw [List.map_cons, ih1]
      · rw [ih2]
      · intro hok d2 hd2
        rcases List.mem_cons.1 hd2 with hd2 | hd2
        · rw [hd2]
          exact ⟨(hok dp (List.mem_cons_self _ _)).1,
            (hok dp (List.mem_cons_self _ _)).2⟩
        · exact ih3 (fun d hd => hok d (List.mem_cons.2 (Or.inr hd))) d2 hd2

theorem dpRound_spec (srv : PartyServer) (draw : ℕ → ℝ × ℝ)
    (dps : List DPClient) (hok : ∀ dp ∈ dps, DPok dp) :
    ((dpProtocolRound srv draw dps).1.map (fun dp => dp.client) =
      (protocolRound srv (dps.map (fun dp => dp.client))).1) ∧
    ((dpProtocolRound srv draw dps).2 =
      (protocolRound srv (dps.map (fun dp => dp.client))).2) ∧
    (∀ d2 ∈ (dpProtocolRound srv draw dps).1, DPok d2) := by
  obtain ⟨hA1, hA2, hA3, hA4⟩ := dpPhaseA_spec draw 0 dps hok
  rw [dpProtocolRound, protocolRound]
  rw [show ((dps.map (fun dp => dp.client)).map local_comp1).map
      (fun r => r.1) = (dps.map (fun dp => dp.client)).map
      (fun c => (local_comp1 c).1) from by rw [List.map_map]; rfl]
  rw [show ((dps.map (fun dp => dp.client)).map local_comp1).map
      (fun r => r.2.1) = (dps.map (fun dp => dp.client)).map
      (fun c => (local_comp1 c).2.1) from by rw [List.map_map]; rfl]
  rw [show ((dps.map (fun dp => dp.client)).map local_comp1).map
      (fun r => r.2.2) = (dps.map (fun dp => dp.client)).map
      (fun c => (local_comp1 c).2.2) from by rw [List.map_map]; rfl]
  rw [← hA1, ← hA2, ← hA3]
  obtain ⟨hB1, hB2, hB3⟩ := dpApplyUpdates_spec
    (calculate_update srv
      (srv.add_ciphertexts ((dpPhaseA draw 0 dps).map (fun r => r.2.1))
        ((dpPhaseA draw 0 dps).map (fun r => r.2.2))).1
      (srv.add_ciphertexts ((dpPhaseA draw 0 dps).map (fun r => r.2.1))
        ((dpPhaseA draw 0 dps).map (fun r => r.2.2))).2)
    ((dpPhaseA draw 0 dps).map (fun r => r.1))
  have hmm : List.map (fun dp => dp.client)
      (List.map (fun r => r.1) (dpPhaseA draw 0 dps)) =
      List.map (fun r => r.1.client) (dpPhaseA draw 0 dps) := by
    rw [List.map_map]
    rfl
  rw [hmm] at hB1 hB2
  refine ⟨?_, ?_, ?_⟩
  · rw [← hB1]
  · rw [← hB2]
  · refine hB3 ?_
    intro d hd
    rcases List.mem_map.1 hd with ⟨r, hr, hrd⟩
    rw [← hrd]
    exact hA4 r hr

theorem dpRun_spec (srv : PartyServer) (draws : ℕ → ℕ → ℝ × ℝ) :
    ∀ (fuel round : ℕ) (dps : List DPClient), (∀ dp ∈ dps, DPok dp) →
      dpLeakyKthRankedElement srv draws round fuel dps =
        leaky_kth_ranked_element srv fuel (dps.map (fun dp => dp.client)) := by
  intro fuel
  induction fuel with
  | zero => intro round dps hok; rfl
  | succ f ih =>
    intro round dps hok
    obtain ⟨h1, h2, h3⟩ := dpRound_spec srv (draws round) dps hok
    rw [dpLeakyKthRankedElement, leaky_succ, ← h2]
    cases hr : (dpProtocolRound srv (draws round) dps).2 with
    | some v => rfl
    | none =>
      rw [ih (round + 1) (dpProtocolRound srv (draws round) dps).1 h3, h1]

/-- C8: with noise level None, a DP run returns exactly the same result as
the non-DP run on the same inputs for both reference scale functions (whose
scale at NONE is 0, so the added noise rounds to 0 and
DPClient::local_computation encrypts the same (less, greater) counts as the
plain client), and the whole protocol returns the exact k-th element; the
draws argument ranges over all outcomes of the uniform noise draws. -/
theorem claim_C8_dp_zero_noise (dbs : List (List ℤ)) (k : ℕ)
    (srv : PartyServer) (dcls : List DPClient) (fn : NoiseLevel → ℕ → ℕ → ℝ)
    (draws : ℕ → ℕ → ℝ × ℝ) (fuel : ℕ)
    (hk1 : 1 ≤ k) (hkN : k ≤ sumLen dbs)
    (hfn : fn = get_scale_fixed ∨ fn = get_scale_sigmoid)
    (hc : create_server_dp_clients k dbs fn .NONE = some (srv, dcls))
    (hfuel : Nat.clog 2 ((((partyMaxs dbs).bind List.max?).getD 0 -
      ((partyMins dbs).bind List.min?).getD 0 + 1)).toNat + 1 ≤ fuel) :
    dpLeakyKthRankedElement srv draws 0 fuel dcls =
      leaky_kth_ranked_element srv fuel (dcls.map (fun dp => dp.client)) ∧
    dpLeakyKthRankedElement srv draws 0 fuel dcls =
      some (get_kth_element dbs k) := by
  rw [create_server_dp_clients] at hc
  obtain ⟨⟨srv2, cls⟩, hsc, heq⟩ := Option.map_eq_some'.1 hc
  have hsrv : srv2 = srv := congrArg Prod.fst heq
  have hdcls : dcls = cls.map (fun c => DPClient.new c fn .NONE) :=
    (congrArg Prod.snd heq).symm
  have hok : ∀ dp ∈ dcls, DPok dp := by
    intro dp hdp
    rw [hdcls] at hdp
    rcases List.mem_map.1 hdp with ⟨c, hc2, hcd⟩
    rw [← hcd]
    refine ⟨rfl, ?_⟩
    rcases hfn with hfn | hfn <;> rw [hfn]
    · intro x y
      exact get_scale_fixed_none x y
    · intro x y
      exact get_scale_sigmoid_none x y
  have hclients : dcls.map (fun dp => dp.client) = cls := by
    rw [hdcls, List.map_map]
    exact List.map_id cls
  have hrun := dpRun_spec srv draws fuel 0 dcls hok
  refine ⟨hrun, ?_⟩
  rw [hrun, hclients]
  rw [hsrv] at hsc
  exact run_main dbs k srv cls fuel hk1 hkN hsc hfuel

/-- Witness for C8: one party [5], k = 1, fixed scale function, any draws;
the DP run at noise level None returns the exact minimum 5. -/
theorem claim_C8_witness :
    dpLeakyKthRankedElement { n := 1, pk := 0, k := 1, databases_size := 1 }
        (fun _ _ => (0, 0)) 0 1
        [DPClient.new (PartyClient.new [5] 0 1 1 1 (5, 5) 0 0)
          get_scale_fixed .NONE] =
      some (get_kth_element [[5]] 1) := by
  have hb : Nat.clog 2 (((((partyMaxs [[5]]).bind List.max?).getD 0 -
      ((partyMins [[5]]).bind List.min?).getD 0 + 1)).toNat) + 1 ≤ 1 := by
    rw [show ((((partyMaxs [[5]]).bind List.max?).getD 0 -
      ((partyMins [[5]]).bind List.min?).getD 0 + 1)).toNat = 1 from rfl]
    rw [Nat.clog]
    norm_num
  exact (claim_C8_dp_zero_noise [[5]] 1
    { n := 1, pk := 0, k := 1, databases_size := 1 }
    [DPClient.new (PartyClient.new [5] 0 1 1 1 (5, 5) 0 0)
      get_scale_fixed .NONE]
    get_scale_fixed (fun _ _ => (0, 0)) 1
    (by decide) (by decide) (Or.inl rfl) rfl hb).2

end DPKRE
